import Mathlib

/-!
Verification of the foxglove-studio player pipeline core: the topic-mapping
engine (`mapping.ts`), the `TopicMappingPlayer` proxy, the synchronized
`MessageHandler` for image mode, the topic namespacing helpers
(`namespaceTopic.ts`) and the renderer config migration
(`migrateConfigTopicsNodes`).

The TypeScript sources are shallowly embedded: JavaScript `Map`s and plain
records become association lists (preserving insertion-order iteration),
the AVL tree keyed by `Time` becomes a list sorted by the same comparator,
and `encodeURIComponent` / `decodeURIComponent` are modelled by an explicit
UTF-8 percent-codec. Fallible operations return `Option`.
-/

/-- Model of JS `Map.get` / first-match association-list lookup. -/
def lookupA {α : Type} (k : String) : List (String × α) → Option α
  | [] => none
  | (k2, v) :: rest => if k2 = k then some v else lookupA k rest

/-- Model of JS `Map.set`: replace the value in place if the key exists,
otherwise append the pair at the end (JS Maps keep insertion order). -/
def setA {α : Type} (k : String) (v : α) : List (String × α) → List (String × α)
  | [] => [(k, v)]
  | (k2, v2) :: rest => if k2 = k then (k, v) :: rest else (k2, v2) :: setA k v rest

/-- Model of JS `Map.delete`: remove the entry for `k`, if present. -/
def deleteA {α : Type} (k : String) : List (String × α) → List (String × α)
  | [] => []
  | (k2, v2) :: rest => if k2 = k then rest else (k2, v2) :: deleteA k rest

/-- Accumulator-based first-occurrence de-duplication. -/
def uniqAux {α : Type} [DecidableEq α] (seen : List α) : List α → List α
  | [] => []
  | a :: l => if a ∈ seen then uniqAux seen l else a :: uniqAux (a :: seen) l

/-- Model of lodash `uniq`: keep the first occurrence of each element. -/
def uniq {α : Type} [DecidableEq α] (l : List α) : List α :=
  uniqAux [] l

/-- Characters `encodeURIComponent` leaves unescaped:
`A-Z a-z 0-9 - _ . ! ~ * ' ( )`. -/
def isUnreservedChar (c : Char) : Bool :=
  let n := c.toNat
  (65 ≤ n && n ≤ 90) || (97 ≤ n && n ≤ 122) || (48 ≤ n && n ≤ 57) ||
    n == 45 || n == 95 || n == 46 || n == 33 || n == 126 || n == 42 ||
    n == 39 || n == 40 || n == 41

/-- Upper-case hex digit for `n < 16`, as produced by `encodeURIComponent`. -/
def hexDigitChar (n : Nat) : Char :=
  if n < 10 then Char.ofNat (48 + n) else Char.ofNat (55 + n)

/-- Hex digit value; `decodeURIComponent` accepts both cases. -/
def hexVal (c : Char) : Option Nat :=
  let n := c.toNat
  if 48 ≤ n ∧ n ≤ 57 then some (n - 48)
  else if 65 ≤ n ∧ n ≤ 70 then some (n - 55)
  else if 97 ≤ n ∧ n ≤ 102 then some (n - 87)
  else none

/-- UTF-8 byte sequence of a code point. -/
def utf8Bytes (n : Nat) : List Nat :=
  if n < 128 then [n]
  else if n < 2048 then [192 + n / 64, 128 + n % 64]
  else if n < 65536 then [224 + n / 4096, 128 + (n / 64) % 64, 128 + n % 64]
  else [240 + n / 262144, 128 + (n / 4096) % 64, 128 + (n / 64) % 64, 128 + n % 64]

/-- `%XX` escape for one byte (upper-case hex, as `encodeURIComponent` emits). -/
def encodeByteChars (b : Nat) : List Char :=
  ['%', hexDigitChar (b / 16), hexDigitChar (b % 16)]

/-- `encodeURIComponent` on a single character: unreserved characters pass
through, every other character is percent-escaped byte-by-byte. -/
def encodeChar (c : Char) : List Char :=
  if isUnreservedChar c then [c] else (utf8Bytes c.toNat).flatMap encodeByteChars

/-- `encodeURIComponent` over a character list. -/
def encodeList : List Char → List Char
  | [] => []
  | c :: rest => encodeChar c ++ encodeList rest

/-- Model of JS `encodeURIComponent`. -/
def encodeURIComponent (s : String) : String :=
  String.mk (encodeList s.data)

/-- Intermediate token of the decoder: a literal character or a `%XX` byte. -/
inductive PToken : Type
  | raw (c : Char)
  | byte (b : Nat)
deriving DecidableEq, Repr

/-- First decoding stage: turn `%XX` escapes into bytes, pass other
characters through; `none` models the `URIError` on a malformed escape. -/
def percentTokens : List Char → Option (List PToken)
  | [] => some []
  | c :: rest =>
    if c = '%' then
      match rest with
      | h1 :: h0 :: rest2 =>
        match hexVal h1, hexVal h0 with
        | some d1, some d0 =>
          match percentTokens rest2 with
          | some ts => some (PToken.byte (16 * d1 + d0) :: ts)
          | none => none
        | _, _ => none
      | _ => none
    else
      match percentTokens rest with
      | some ts => some (PToken.raw c :: ts)
      | none => none

/-- UTF-8 continuation byte test. -/
def isContByte (b : Nat) : Bool :=
  128 ≤ b && b < 192

/-- One UTF-8 decoding step: consume one raw character or one complete
escape-byte sequence, yielding the decoded character and the remaining
tokens; `none` models the `URIError` on an invalid sequence. -/
def parseUtf8 : List PToken → Option (Char × List PToken)
  | [] => none
  | PToken.raw c :: ts1 => some (c, ts1)
  | PToken.byte b0 :: ts1 =>
    if b0 < 128 then some (Char.ofNat b0, ts1)
    else if b0 < 192 then none
    else if b0 < 224 then
      match ts1 with
      | PToken.byte b1 :: ts2 =>
        if isContByte b1 then some (Char.ofNat ((b0 - 192) * 64 + (b1 - 128)), ts2) else none
      | _ => none
    else if b0 < 240 then
      match ts1 with
      | PToken.byte b1 :: PToken.byte b2 :: ts2 =>
        if isContByte b1 && isContByte b2 then
          some (Char.ofNat ((b0 - 224) * 4096 + (b1 - 128) * 64 + (b2 - 128)), ts2)
        else none
      | _ => none
    else if b0 < 248 then
      match ts1 with
      | PToken.byte b1 :: PToken.byte b2 :: PToken.byte b3 :: ts2 =>
        if isContByte b1 && isContByte b2 && isContByte b3 then
          some (Char.ofNat
            ((b0 - 240) * 262144 + (b1 - 128) * 4096 + (b2 - 128) * 64 + (b3 - 128)), ts2)
        else none
      | _ => none
    else none

/-- Fuel-driven UTF-8 reassembly loop; the fuel is only a termination device
and is irrelevant as long as it is at least the number of tokens. -/
def utf8AssembleGo : Nat → List PToken → Option (List Char)
  | _, [] => some []
  | 0, _ :: _ => none
  | Nat.succ fuel, t :: ts =>
    match parseUtf8 (t :: ts) with
    | some p => (utf8AssembleGo fuel p.2).map (fun cs => p.1 :: cs)
    | none => none

/-- Second decoding stage: reassemble consecutive escape bytes into UTF-8
code points; `none` models the `URIError` on an invalid sequence. -/
def utf8Assemble (ts : List PToken) : Option (List Char) :=
  utf8AssembleGo ts.length ts

/-- Model of JS `decodeURIComponent` over a character list. -/
def decodeURIComponentChars (cs : List Char) : Option (List Char) :=
  match percentTokens cs with
  | some ts => utf8Assemble ts
  | none => none

/-- Model of JS `decodeURIComponent`; `none` models a thrown `URIError`. -/
def decodeURIComponentStr (s : String) : Option String :=
  (decodeURIComponentChars s.data).map String.mk

/-- `namespaceTopic` from `namespaceTopic.ts`:
``encodeURIComponent(topic) + ":" + encodeURIComponent(schema)``. -/
def namespaceTopic (topic schema : String) : String :=
  String.mk (encodeList topic.data ++ ':' :: encodeList schema.data)

/-- `unnamespacetopic` from `namespaceTopic.ts`: take the part of the string
before the first `:` (JS `split(":")[0]`) and percent-decode it. `none`
models `decodeURIComponent` throwing. -/
def unnamespacetopic (t : String) : Option String :=
  (decodeURIComponentChars (t.data.takeWhile (fun c => c != ':'))).map String.mk

/-- Token image of one character under the encoder. -/
def tokensOfChar (c : Char) : List PToken :=
  if isUnreservedChar c then [PToken.raw c] else (utf8Bytes c.toNat).map PToken.byte

/-- Token image of a character list under the encoder. -/
def tokensList (cs : List Char) : List PToken :=
  cs.flatMap tokensOfChar

/-- `Topic` from `players/types`: the fields the mapping engine touches. -/
structure Topic where
  name : String
  schemaName : String
  convertibleTo : Option (List String) := none
  mappedFromName : Option String := none
deriving DecidableEq, Repr

/-- `MessageEvent`: topic plus an opaque payload standing for every other
field (receive time, message body, size), which the engine copies verbatim. -/
structure MessageEvent where
  topic : String
  payload : Nat
deriving DecidableEq, Repr

/-- `SubscribePayload`: subscription topic plus an opaque payload standing
for the other fields (preload type), copied verbatim. -/
structure SubscribePayload where
  topic : String
  payload : Nat
deriving DecidableEq, Repr

/-- `MessageBlock`: per-topic message buckets plus opaque per-block metadata
(`sizeInBytes` etc.), spread verbatim by `mapBlocks`. -/
structure MessageBlock where
  messagesByTopic : List (String × List MessageEvent)
  sizeInBytes : Nat
deriving DecidableEq, Repr

/-- `TopicMapping` (`Map<string, string[]>`). `EmptyMapping` is a separate
constructor because the source compares against the `EmptyMapping` sentinel
by reference (`mapping === EmptyMapping`); a structurally empty table built
by `mergeMappings` is a different object. -/
inductive TopicMapping : Type
  | EmptyMapping : TopicMapping
  | table (entries : List (String × List String)) : TopicMapping
deriving DecidableEq, Repr

/-- `Map.get` on a `TopicMapping`. -/
def TopicMapping.get (m : TopicMapping) (k : String) : Option (List String) :=
  match m with
  | .EmptyMapping => none
  | .table es => lookupA k es

/-- `mapMessages` from `mapping.ts`. -/
def mapMessages (messages : List MessageEvent) (mapping : TopicMapping) : List MessageEvent :=
  match mapping with
  | .EmptyMapping => messages
  | .table es =>
    messages.flatMap (fun msg =>
      match lookupA msg.topic es with
      | some mappings => mappings.map (fun mappedTopic => { msg with topic := mappedTopic })
      | none => [msg])

/-- `mapTopics` from `mapping.ts`. -/
def mapTopics (topics : List Topic) (mapping : TopicMapping) : List Topic :=
  match mapping with
  | .EmptyMapping => topics
  | .table es =>
    topics.flatMap (fun topic =>
      match lookupA topic.name es with
      | some mappings =>
        mappings.map (fun newName =>
          { topic with name := newName, mappedFromName := some topic.name })
      | none => [topic])

/-- The lodash `transform` loop inside `mapBlocks`: rebuild the
`messagesByTopic` record, fanning mapped buckets out and renaming each
contained message. -/
def mapBlockEntries (entries : List (String × List MessageEvent))
    (es : List (String × List String)) : List (String × List MessageEvent) :=
  entries.foldl (fun acc e =>
    match lookupA e.1 es with
    | some mappings =>
      mappings.foldl (fun acc2 mappedTopic =>
        setA mappedTopic (e.2.map (fun msg => { msg with topic := mappedTopic })) acc2) acc
    | none => setA e.1 e.2 acc) []

/-- `mapBlocks` from `mapping.ts`. -/
def mapBlocks (blocks : List (Option MessageBlock)) (mapping : TopicMapping) :
    List (Option MessageBlock) :=
  match mapping with
  | .EmptyMapping => blocks
  | .table es =>
    blocks.map (fun block =>
      match block with
      | some b => some { b with messagesByTopic := mapBlockEntries b.messagesByTopic es }
      | none => none)

/-- `mapKeyedTopics` from `mapping.ts`; a JS `Set` is modelled as the list of
its elements in insertion order, so `new Set(list)` is `uniq list`. -/
def mapKeyedTopics (topics : List (String × List String)) (mapping : TopicMapping) :
    List (String × List String) :=
  match mapping with
  | .EmptyMapping => topics
  | .table es =>
    topics.map (fun kv =>
      (kv.1, uniq (kv.2.flatMap (fun value => (lookupA value es).getD [value]))))

/-- `invertMapping` from `mapping.ts`. -/
def invertMapping (mapping : TopicMapping) : TopicMapping :=
  match mapping with
  | .EmptyMapping => .EmptyMapping
  | .table es =>
    .table (es.foldl (fun inverted kv =>
      kv.2.foldl (fun inv value =>
        setA value ((lookupA value inv).getD [] ++ [kv.1]) inv) inverted) [])

/-- `mergeMappings` from `mapping.ts`: merge the per-mapper `Map<string,
string>`s into one `Map<string, string[]>`, de-duplicating with lodash
`uniq`. -/
def mergeMappings (maps : List (List (String × String))) : List (String × List String) :=
  maps.foldl (fun merged m =>
    m.foldl (fun acc kv =>
      setA kv.1 (uniq ((lookupA kv.1 acc).getD [] ++ [kv.2])) acc) merged) []

/-- A registered topic mapper callback: receives the topic list and the
global variables (opaque) and returns a partial name-to-name mapping. -/
def TopicMapper : Type :=
  List Topic → Nat → List (String × String)

/-- `MappingInputs` from `mapping.ts`. -/
structure MappingInputs where
  mappers : List TopicMapper
  topics : Option (List Topic)
  globalVariables : Nat

/-- `buildMapping` from `mapping.ts`: run every mapper and merge, returning
the `EmptyMapping` sentinel when no mapper proposed any rename. -/
def buildMapping (inputs : MappingInputs) : TopicMapping :=
  let mappings := inputs.mappers.map (fun mapper =>
    mapper (inputs.topics.getD []) inputs.globalVariables)
  if mappings.any (fun m => !m.isEmpty) then .table (mergeMappings mappings)
  else .EmptyMapping

/-- The body of `mapSubscriptions` after the memoized `buildMapping` call:
short-circuit on the sentinel, otherwise rewrite each subscription through
the inverted mapping. -/
def mapSubscriptionsCore (mapping : TopicMapping) (subscriptions : List SubscribePayload) :
    List SubscribePayload :=
  match mapping with
  | .EmptyMapping => subscriptions
  | .table es =>
    let inverseMapping := invertMapping (TopicMapping.table es)
    subscriptions.flatMap (fun sub =>
      match inverseMapping.get sub.topic with
      | some mappings => mappings.map (fun mappedTopic => { sub with topic := mappedTopic })
      | none => [sub])

/-- `mapSubscriptions` from `mapping.ts`. -/
def mapSubscriptions (inputs : MappingInputs) (subscriptions : List SubscribePayload) :
    List SubscribePayload :=
  mapSubscriptionsCore (buildMapping inputs) subscriptions

/-- The sources feeding a target topic: for each `(source, targets)` pair of
the mapping, one occurrence of `source` per occurrence of the target in
`targets`, in iteration order. -/
def inverseSources (es : List (String × List String)) (tgt : String) : List String :=
  es.flatMap (fun kv => (kv.2.filter (fun v => v == tgt)).map (fun _ => kv.1))

/-- The slice of `PlayerState.activeData` that the mapping player rewrites. -/
structure ActiveData where
  topics : List Topic
  messages : List MessageEvent
  publishedTopics : Option (List (String × List String))
  subscribedTopics : Option (List (String × List String))

/-- `PlayerState`: optional active data plus the progress slot holding the
block cache. -/
structure PlayerState where
  activeData : Option ActiveData
  blocks : Option (List (Option MessageBlock))

/-- `mapPlayerState` from `mapping.ts`: copy the state and apply every
shape transform with the mapping built from the inputs. -/
def mapPlayerState (inputs : MappingInputs) (playerState : PlayerState) : PlayerState :=
  let mapping := buildMapping inputs
  { activeData := playerState.activeData.map (fun ad =>
      { ad with
        topics := mapTopics ad.topics mapping
        messages := mapMessages ad.messages mapping
        publishedTopics := ad.publishedTopics.map (fun kt => mapKeyedTopics kt mapping)
        subscribedTopics := ad.subscribedTopics.map (fun kt => mapKeyedTopics kt mapping) })
    blocks := playerState.blocks.map (fun bs => mapBlocks bs mapping) }

/-- The mutable fields of `TopicMappingPlayer`: the mapping inputs (mappers,
last-seen topic list, global variables) and the pending-subscriptions slot. -/
structure TMPState where
  mappers : List TopicMapper
  topics : Option (List Topic)
  globalVariables : Nat
  pendingSubscriptions : Option (List SubscribePayload)

/-- `#skipMapping`; the source keeps this field equal to
`mappers.length === 0` at the constructor and every `setMappers` call. -/
def TMPState.skipMapping (st : TMPState) : Bool :=
  st.mappers.isEmpty

/-- The `#inputs` record handed to the mapping engine. -/
def TMPState.inputs (st : TMPState) : MappingInputs :=
  ⟨st.mappers, st.topics, st.globalVariables⟩

/-- `TopicMappingPlayer.setSubscriptions`: returns the updated player state
and the payload list forwarded to the wrapped player (`none` when the
request is buffered instead). -/
def setSubscriptions (st : TMPState) (subscriptions : List SubscribePayload) :
    TMPState × Option (List SubscribePayload) :=
  if st.skipMapping then (st, some subscriptions)
  else
    match st.topics with
    | some _ =>
      ({ st with pendingSubscriptions := none },
        some (mapSubscriptions st.inputs subscriptions))
    | none => ({ st with pendingSubscriptions := some subscriptions }, none)

/-- `TopicMappingPlayer.#onPlayerState`: returns the updated player state,
the state emitted to the listener, and any subscription list forwarded to
the wrapped player by flushing the pending request. The source only
reassigns `#inputs.topics` when the incoming list differs by reference; the
unconditional assignment here has the same meaning. -/
def onPlayerState (st : TMPState) (playerState : PlayerState) :
    TMPState × PlayerState × Option (List SubscribePayload) :=
  if st.skipMapping then (st, playerState, none)
  else
    let st1 := { st with topics := playerState.activeData.map (fun ad : ActiveData => ad.topics) }
    let newState := mapPlayerState st1.inputs playerState
    match st1.pendingSubscriptions, st1.topics with
    | some pending, some _ =>
      let res := setSubscriptions st1 pending
      (res.1, newState, res.2)
    | _, _ => (st1, newState, none)

/-! ## Synchronized MessageHandler (`ImageMode/MessageHandler.ts`) -/

/-- `Time` from `@foxglove/rostime`: seconds plus nanoseconds. -/
structure Time where
  sec : Nat
  nsec : Nat
deriving DecidableEq, Repr

/-- `isLessThan` (`compare < 0`) from rostime: lexicographic on
(sec, nsec). -/
def timeLt (a b : Time) : Bool :=
  a.sec < b.sec || (a.sec == b.sec && a.nsec < b.nsec)

/-- `toNanoSec` from rostime. -/
def toNanoSec (t : Time) : Nat :=
  t.sec * 1000000000 + t.nsec

/-- `fromNanoSec` from rostime. -/
def fromNanoSec (n : Nat) : Time :=
  ⟨n / 1000000000, n % 1000000000⟩

/-- A normalized per-instant annotation (`Annotation` in the source): its
embedded timestamp plus opaque content. -/
structure Annot where
  stamp : Time
  data : Nat
deriving DecidableEq, Repr

/-- A normalized image message: the timestamp that
`getTimestampFromImage` extracts, plus opaque payload. -/
structure ImageMessage where
  stamp : Time
  data : Nat
deriving DecidableEq, Repr

/-- An incoming annotations message: topic, schema name, the normalized
annotation list (`normalizeAnnotations` output) and opaque original data. -/
structure AnnotationMessage where
  topic : String
  schemaName : String
  annots : List Annot
  data : Nat
deriving DecidableEq, Repr

/-- `NormalizedAnnotations`: the original message plus the annotation batch
stored under a namespaced topic. -/
structure NormalizedAnnotations where
  originalMessage : AnnotationMessage
  annots : List Annot
deriving DecidableEq, Repr

/-- `SynchronizationItem`. -/
structure SynchronizationItem where
  image : Option ImageMessage
  annotationsByNamespacedTopic : List (String × NormalizedAnnotations)
deriving DecidableEq, Repr

/-- Opaque normalized calibration (`CameraInfo`). -/
abbrev CameraInfo := Nat

/-- Per-annotation-topic settings; the handler only reads `visible`. -/
structure AnnotSettings where
  visible : Option Bool
deriving DecidableEq, Repr

/-- The `MessageHandlerConfig` slice of `ImageModeConfig`. Optional fields
are `Option`s; a field that is `undefined` in TS is `none`. -/
structure MessageHandlerConfig where
  synchronize : Option Bool
  imageTopic : Option String
  calibrationTopic : Option String
  annotationsConfig : Option (List (String × Option AnnotSettings))
deriving DecidableEq, Repr

/-- `Partial<ImageModeConfig>` as taken by `setConfig`: an outer `Option`
marks whether the key is present (`"field" in newConfig` /
`!= undefined`). -/
structure PartialImageModeConfig where
  synchronize : Option Bool
  imageTopic : Option (Option String)
  calibrationTopic : Option (Option String)
  annotationsConfig : Option (List (String × Option AnnotSettings))
deriving DecidableEq, Repr

/-- `MessageHandlerState` (the `#lastReceivedMessages` slot). -/
structure LastReceived where
  image : Option ImageMessage
  cameraInfo : Option CameraInfo
  annotationsByNamespacedTopic : List (String × NormalizedAnnotations)
deriving DecidableEq, Repr

/-- The mutable fields of `MessageHandler`: the config, the last received
messages and the ordered index (the `AVLTree<Time, SynchronizationItem>`
keyed by `compareTime`, modelled as a list sorted by `timeLt` on keys). -/
structure HandlerState where
  config : MessageHandlerConfig
  lastReceivedMessages : LastReceived
  tree : List (Time × SynchronizationItem)
deriving DecidableEq, Repr

/-- `MessageRenderState`: each slot is `Option`al; an absent key of the
returned object is `none`. -/
structure MessageRenderState where
  image : Option ImageMessage
  cameraInfo : Option CameraInfo
  annotationsByNamespacedTopic : Option (List (String × NormalizedAnnotations))
deriving DecidableEq, Repr

/-- `AVLTree.get`: exact-key lookup. -/
def treeGet (tree : List (Time × SynchronizationItem)) (t : Time) :
    Option SynchronizationItem :=
  match tree with
  | [] => none
  | (t2, item) :: rest => if t2 = t then some item else treeGet rest t

/-- `AVLTree.set`: ordered insert, replacing the value on an equal key. -/
def treeSet (tree : List (Time × SynchronizationItem)) (t : Time)
    (item : SynchronizationItem) : List (Time × SynchronizationItem) :=
  match tree with
  | [] => [(t, item)]
  | (t2, it2) :: rest =>
    if timeLt t t2 then (t, item) :: (t2, it2) :: rest
    else if t2 = t then (t, item) :: rest
    else (t2, it2) :: treeSet rest t item

/-- The tree invariant maintained by the AVL map: keys strictly ascending. -/
def sortedTree (tree : List (Time × SynchronizationItem)) : Prop :=
  tree.Pairwise (fun a b => timeLt a.1 b.1 = true)

/-- `MessageHandler.#handleImage`, given the already-normalized image
message; `#emitState` is invoked unconditionally afterwards. -/
def handleImage (st : HandlerState) (msg : ImageMessage) : HandlerState :=
  if st.config.synchronize ≠ some true then
    { st with lastReceivedMessages := { st.lastReceivedMessages with image := some msg } }
  else
    match treeGet st.tree msg.stamp with
    | some item => { st with tree := treeSet st.tree msg.stamp { item with image := some msg } }
    | none => { st with tree := treeSet st.tree msg.stamp ⟨some msg, []⟩ }

/-- `MessageHandler.handleCameraInfo`: calibration is never time-indexed. -/
def handleCameraInfo (st : HandlerState) (cam : CameraInfo) : HandlerState :=
  { st with lastReceivedMessages := { st.lastReceivedMessages with cameraInfo := some cam } }

/-- One step of the grouping loop in `handleAnnotations`: append the
annotation to its stamp group, JS `Map` insertion-order semantics. -/
def addToGroup (groups : List (Nat × List Annot)) (key : Nat) (a : Annot) :
    List (Nat × List Annot) :=
  match groups with
  | [] => [(key, [a])]
  | (k2, l) :: rest =>
    if k2 = key then (k2, l ++ [a]) :: rest else (k2, l) :: addToGroup rest key a

/-- The grouping loop of `handleAnnotations`: group annotations by
`toNanoSec(stamp)` preserving first-encounter key order. -/
def groupByStamp (annots : List Annot) : List (Nat × List Annot) :=
  annots.foldl (fun groups a => addToGroup groups (toNanoSec a.stamp) a) []

/-- The per-group insert/merge step of the synchronized branch of
`handleAnnotations`: find or create the tree item at the group's stamp and
store the batch under the namespaced topic key. -/
def annInsertGroup (namespacedTopic : String) (msg : AnnotationMessage)
    (tree : List (Time × SynchronizationItem)) (g : Nat × List Annot) :
    List (Time × SynchronizationItem) :=
  let stamp := fromNanoSec g.1
  match treeGet tree stamp with
  | some item =>
    let anns2 := setA namespacedTopic ⟨msg, g.2⟩ item.annotationsByNamespacedTopic
    treeSet tree stamp { item with annotationsByNamespacedTopic := anns2 }
  | none => treeSet tree stamp ⟨none, setA namespacedTopic ⟨msg, g.2⟩ []⟩

/-- `MessageHandler.handleAnnotations`. -/
def handleAnnotations (st : HandlerState) (msg : AnnotationMessage) : HandlerState :=
  let namespacedTopic := namespaceTopic msg.topic msg.schemaName
  if st.config.synchronize ≠ some true then
    { st with lastReceivedMessages := { st.lastReceivedMessages with
        annotationsByNamespacedTopic := setA namespacedTopic ⟨msg, msg.annots⟩
          st.lastReceivedMessages.annotationsByNamespacedTopic } }
  else
    { st with tree :=
        (groupByStamp msg.annots).foldl (annInsertGroup namespacedTopic msg) st.tree }

/-- `MessageHandler.#visibleAnnotations`: the namespaced topics whose
settings have `visible === true`. -/
def visibleAnnotations (cfg : MessageHandlerConfig) : List String :=
  (cfg.annotationsConfig.getD []).filterMap (fun kv =>
    match kv.2 with
    | some s => if s.visible = some true then some kv.1 else none
    | none => none)

/-- The `hasOnlyVisibleAnnotations` test inside
`findSynchronizedSetAndRemoveOlderItems`: sizes match and every visible
topic has a batch. -/
def hasOnlyVisible (visible : List String) (item : SynchronizationItem) : Bool :=
  visible.length == item.annotationsByNamespacedTopic.length &&
    visible.all (fun topic => (lookupA topic item.annotationsByNamespacedTopic).isSome)

/-- The qualification test of the scan loop: an image is present and the
annotation-topic set matches the visible set
(`messageState.image && hasOnlyVisibleAnnotations`). -/
def qualifiesEntry (visible : List String) (entry : Time × SynchronizationItem) : Bool :=
  entry.2.image.isSome && hasOnlyVisible visible entry.2

/-- The scan loop of `findSynchronizedSetAndRemoveOlderItems`: iterate the
entries in ascending order, overwriting `validEntry` at every qualifying
entry (image present and only-visible annotations). -/
def findValidEntry (tree : List (Time × SynchronizationItem)) (visible : List String) :
    Option (Time × SynchronizationItem) :=
  tree.foldl (fun validEntry entry =>
    if qualifiesEntry visible entry then some entry else validEntry) none

/-- The eviction loop of `findSynchronizedSetAndRemoveOlderItems`:
`while minKey < winner: shift()`. -/
def removeOlder (tree : List (Time × SynchronizationItem)) (t : Time) :
    List (Time × SynchronizationItem) :=
  match tree with
  | [] => []
  | (t2, it2) :: rest => if timeLt t2 t then removeOlder rest t else (t2, it2) :: rest

/-- `findSynchronizedSetAndRemoveOlderItems`: the winning entry (if any)
plus the tree after eviction. -/
def findSynchronizedSetAndRemoveOlderItems (tree : List (Time × SynchronizationItem))
    (visible : List String) :
    Option (Time × SynchronizationItem) × List (Time × SynchronizationItem) :=
  match findValidEntry tree visible with
  | some e => (some e, removeOlder tree e.1)
  | none => (none, tree)

/-- `MessageHandler.getRenderState`: the produced render state plus the
handler state after the synchronized scan pruned the tree. -/
def getRenderState (st : HandlerState) : MessageRenderState × HandlerState :=
  if st.config.synchronize = some true then
    let res := findSynchronizedSetAndRemoveOlderItems st.tree (visibleAnnotations st.config)
    match res.1 with
    | some validEntry =>
      (⟨validEntry.2.image, st.lastReceivedMessages.cameraInfo,
        some validEntry.2.annotationsByNamespacedTopic⟩, { st with tree := res.2 })
    | none => (⟨none, st.lastReceivedMessages.cameraInfo, none⟩, { st with tree := res.2 })
  else
    (⟨st.lastReceivedMessages.image, st.lastReceivedMessages.cameraInfo,
      some st.lastReceivedMessages.annotationsByNamespacedTopic⟩, st)

/-- The reset trigger for `synchronize` in `setConfig`:
`newConfig.synchronize != undefined && newConfig.synchronize !==
this.#config.synchronize`. -/
def syncResetNeeded (st : HandlerState) (nc : PartialImageModeConfig) : Bool :=
  match nc.synchronize with
  | some b => decide (¬(st.config.synchronize = some b))
  | none => false

/-- The reset trigger for `imageTopic` in `setConfig`:
`"imageTopic" in newConfig && this.#config.imageTopic !==
newConfig.imageTopic`. -/
def imageResetNeeded (st : HandlerState) (nc : PartialImageModeConfig) : Bool :=
  match nc.imageTopic with
  | some v => decide (¬(st.config.imageTopic = v))
  | none => false

/-- The reset trigger for `calibrationTopic` in `setConfig`. -/
def calibResetNeeded (st : HandlerState) (nc : PartialImageModeConfig) : Bool :=
  match nc.calibrationTopic with
  | some v => decide (¬(st.config.calibrationTopic = v))
  | none => false

/-- The trigger for the annotation-visibility narrowing scan in
`setConfig`: `newConfig.annotations != undefined && this.#config.annotations
&& this.#config.annotations !== newConfig.annotations` (reference
inequality modelled structurally). -/
def annNarrowNeeded (st : HandlerState) (nc : PartialImageModeConfig) : Bool :=
  match nc.annotationsConfig, st.config.annotationsConfig with
  | some newAnn, some oldAnn => decide (¬(oldAnn = newAnn))
  | _, _ => false

/-- `newVisibleAnnotationsMap` built inside `setConfig`: topics whose new
settings have `visible === true`. -/
def newVisibleMap (annotationsConfig : List (String × Option AnnotSettings)) :
    List (String × Bool) :=
  annotationsConfig.foldl (fun acc kv =>
    match kv.2 with
    | some s => if s.visible = some true then setA kv.1 true acc else acc
    | none => acc) []

/-- The per-topic keep test of the narrowing scan:
`newVisibleAnnotationsMap.get(topic) == undefined` means delete. -/
def keepTopic (nc : PartialImageModeConfig) (k : String) : Bool :=
  (lookupA k (newVisibleMap (nc.annotationsConfig.getD []))).isSome

/-- The spread `{ ...this.#config, ...newConfig }` at the end of
`setConfig`. -/
def mergeConfig (cfg : MessageHandlerConfig) (nc : PartialImageModeConfig) :
    MessageHandlerConfig :=
  { synchronize := match nc.synchronize with | some b => some b | none => cfg.synchronize
    imageTopic := match nc.imageTopic with | some v => v | none => cfg.imageTopic
    calibrationTopic :=
      match nc.calibrationTopic with | some v => v | none => cfg.calibrationTopic
    annotationsConfig :=
      match nc.annotationsConfig with | some a => some a | none => cfg.annotationsConfig }

/-- `MessageHandler.setConfig`: the updated state plus the `changed` flag
(`#emitState` runs exactly when it is true). The four reset blocks run in
source order, threading `changed`. -/
def setConfig (st : HandlerState) (nc : PartialImageModeConfig) : HandlerState × Bool :=
  let r1 := if syncResetNeeded st nc then (([] : List (Time × SynchronizationItem)), true)
    else (st.tree, false)
  let r2 := if imageResetNeeded st nc then
      ((r1.1.map (fun e => (e.1, { e.2 with image := none })),
        (none : Option ImageMessage)), true)
    else ((r1.1, st.lastReceivedMessages.image), r1.2)
  let r3 := if calibResetNeeded st nc then ((none : Option CameraInfo), true)
    else (st.lastReceivedMessages.cameraInfo, r2.2)
  let r4 :=
    if annNarrowNeeded st nc then
      ((st.lastReceivedMessages.annotationsByNamespacedTopic.filter
          (fun kv => keepTopic nc kv.1),
        r2.1.1.map (fun e => (e.1, { e.2 with annotationsByNamespacedTopic :=
          e.2.annotationsByNamespacedTopic.filter (fun kv => keepTopic nc kv.1) }))),
        r3.2 || st.lastReceivedMessages.annotationsByNamespacedTopic.any
            (fun kv => !(keepTopic nc kv.1)) ||
          r2.1.1.any (fun e => e.2.annotationsByNamespacedTopic.any
            (fun kv => !(keepTopic nc kv.1))))
    else ((st.lastReceivedMessages.annotationsByNamespacedTopic, r2.1.1), r3.2)
  ({ config := mergeConfig st.config nc
     lastReceivedMessages := ⟨r2.1.2, r3.1, r4.1.1⟩
     tree := r4.1.2 }, r4.2)

/-- `MessageHandler.clear`. -/
def clearHandler (st : HandlerState) : HandlerState :=
  { st with lastReceivedMessages := ⟨none, none, []⟩, tree := [] }

/-! ## Renderer config migration (`migrateConfigTopicsNodes`) -/

/-- A settings node in the config records: `undefined | Partial<BaseSettings>`
with the settings payload opaque. -/
abbrev SettingsNode := Option Nat

/-- The slice of `RendererConfig` that the migration touches: the legacy
flat `topics` record, the `namespacedTopics` record, and the remaining
fields spread verbatim. -/
structure RendererConfig where
  topics : List (String × SettingsNode)
  namespacedTopics : List (String × SettingsNode)
  otherFields : Nat
deriving DecidableEq, Repr

/-- JS object spread `{ ...old, ...upd }`: keys of `old` in order (values
overridden by `upd` when present), then the keys only in `upd`. -/
def recordSpread {α : Type} (old upd : List (String × α)) : List (String × α) :=
  old.map (fun kv => (kv.1, (lookupA kv.1 upd).getD kv.2)) ++
    upd.filter (fun kv => (lookupA kv.1 old).isNone)

/-- The per-entry branching of `migrateConfigTopicsNodes`: the namespaced
key the entry moves to, or `none` when it stays in the legacy map. The
supported-schema set (`ALL_SUPPORTED_SCHEMAS`, built from constants outside
this core) is a parameter. -/
def migrationTarget (supported : List String) (topics : List Topic) (k : String) :
    Option String :=
  match topics.find? (fun top => top.name == k) with
  | some topic =>
    if topic.schemaName ≠ "" ∧ topic.schemaName ∈ supported then
      some (namespaceTopic topic.name topic.schemaName)
    else
      match topic.convertibleTo with
      | some convertible =>
        match convertible.find? (fun schema => decide (schema ∈ supported)) with
        | some convertibleSchema => some (namespaceTopic topic.name convertibleSchema)
        | none => none
      | none => none
  | none => none

/-- The entry loop of `migrateConfigTopicsNodes`, accumulating
`(unmigratedTopics, newNamespacedTopics)`; object key assignment is
`setA`. -/
def migrateStep (supported : List String) (topics : List Topic)
    (acc : List (String × SettingsNode) × List (String × SettingsNode))
    (kv : String × SettingsNode) :
    List (String × SettingsNode) × List (String × SettingsNode) :=
  match migrationTarget supported topics kv.1 with
  | some mappedKey => (acc.1, setA mappedKey kv.2 acc.2)
  | none => (setA kv.1 kv.2 acc.1, acc.2)

/-- `migrateConfigTopicsNodes` from `useMigratedThreeDeeConfig.ts`'s module:
move migratable legacy `topics` entries into `namespacedTopics`; return the
original config when the topic list is empty or nothing moved. -/
def migrateConfigTopicsNodes (supported : List String) (oldConfig : RendererConfig)
    (topics : List Topic) : RendererConfig :=
  if topics.length = 0 then oldConfig
  else
    let res := oldConfig.topics.foldl (migrateStep supported topics) ([], [])
    if res.2.isEmpty then oldConfig
    else
      { oldConfig with
        namespacedTopics := recordSpread oldConfig.namespacedTopics res.2
        topics := res.1 }


/-- Concrete image used in the C1 witness state. -/
def imgC1 : ImageMessage := ⟨⟨1, 0⟩, 0⟩

/-- Concrete annotation batch used in the C1 witness state. -/
def batchC1 : NormalizedAnnotations := ⟨⟨"X", "S", [], 0⟩, []⟩

/-- Concrete handler state for the C1 witness: synchronized config with one
visible annotation topic and a two-entry index whose newer entry qualifies. -/
def stC1 : HandlerState :=
  ⟨⟨some true, none, none, some [("K", some ⟨some true⟩)]⟩,
   ⟨none, some 7, []⟩,
   [(⟨0, 0⟩, ⟨none, []⟩), (⟨1, 0⟩, ⟨some imgC1, [("K", batchC1)]⟩)]⟩

/-- Concrete handler state for the C7 witness: synchronized, two visible
annotation topics, one index entry buffering batches for both. -/
def st7 : HandlerState :=
  ⟨⟨some true, none, none, some [("X", some ⟨some true⟩), ("Y", some ⟨some true⟩)]⟩,
   ⟨none, some 3, [("X", batchC1), ("Y", batchC1)]⟩,
   [(⟨1, 0⟩, ⟨some imgC1, [("X", batchC1), ("Y", batchC1)]⟩)]⟩

/-- Concrete config update for the C7 witness: narrow the visible
annotation set from X, Y down to X only. -/
def nc7 : PartialImageModeConfig :=
  ⟨none, none, none, some [("X", some ⟨some true⟩)]⟩

/-- Supported-schema set for the C4 witness. -/
def supported4 : List String := ["S1", "S2"]

/-- Topic list for the C4 witness: A has a directly supported schema, B is
supported only through conversion, C has no supported schema at all. -/
def topics4 : List Topic :=
  [⟨"A", "S1", none, none⟩, ⟨"B", "X", some ["Y", "S2"], none⟩,
   ⟨"C", "X", some ["Z"], none⟩]

/-- Legacy renderer config for the C4 witness; topic D is absent from the
topic list. -/
def cfg4 : RendererConfig :=
  ⟨[("A", some 1), ("B", some 2), ("C", some 3), ("D", some 4)], [("old", some 9)], 5⟩

theorem hexVal_hexDigitChar (d : Nat) (h : d < 16) : hexVal (hexDigitChar d) = some d := by
  interval_cases d <;> rfl

theorem ne_percent_of_unreserved (c : Char) (h : isUnreservedChar c = true) : ¬(c = '%') := by
  intro he
  subst he
  exact absurd h (by decide)

theorem percentTokens_cons_raw (c : Char) (h : ¬(c = '%')) (r : List Char) :
    percentTokens (c :: r) = (percentTokens r).map (fun ts => PToken.raw c :: ts) := by
  conv_lhs => rw [percentTokens.eq_def]
  simp only [if_neg h]
  cases hr : percentTokens r <;> simp

theorem percentTokens_encodeByte (b : Nat) (hb : b < 256) (r : List Char) :
    percentTokens (encodeByteChars b ++ r) =
      (percentTokens r).map (fun ts => PToken.byte b :: ts) := by
  simp only [encodeByteChars, List.cons_append, List.nil_append]
  conv_lhs => rw [percentTokens.eq_def]
  simp only [if_pos rfl, hexVal_hexDigitChar (b / 16) (by omega),
    hexVal_hexDigitChar (b % 16) (by omega)]
  have hb2 : 16 * (b / 16) + b % 16 = b := by omega
  rw [hb2]
  cases hr : percentTokens r <;> simp

theorem percentTokens_encodeBytes (bs : List Nat) (h : ∀ b ∈ bs, b < 256) (r : List Char) :
    percentTokens (bs.flatMap encodeByteChars ++ r) =
      (percentTokens r).map (fun ts => bs.map PToken.byte ++ ts) := by
  induction bs with
  | nil =>
    simp only [List.flatMap_nil, List.nil_append, List.map_nil]
    cases percentTokens r <;> rfl
  | cons b bs ih =>
    simp only [List.flatMap_cons, List.append_assoc]
    rw [percentTokens_encodeByte b (h b (by simp)) _]
    rw [ih (fun x hx => h x (by simp [hx]))]
    cases percentTokens r <;> rfl

theorem utf8Bytes_lt_256 (n : Nat) (h : n < 1114112) : ∀ b ∈ utf8Bytes n, b < 256 := by
  intro b hb
  unfold utf8Bytes at hb
  split at hb
  · simp at hb
    omega
  · split at hb
    · simp at hb
      omega
    · split at hb
      · simp at hb
        omega
      · simp at hb
        omega

theorem percentTokens_encodeChar (c : Char) (r : List Char) :
    percentTokens (encodeChar c ++ r) =
      (percentTokens r).map (fun ts => tokensOfChar c ++ ts) := by
  by_cases hu : isUnreservedChar c = true
  · simp only [encodeChar, tokensOfChar, if_pos hu, List.cons_append, List.nil_append]
    rw [percentTokens_cons_raw c (ne_percent_of_unreserved c hu) r]
  · simp only [encodeChar, tokensOfChar, if_neg hu]
    have hv : c.toNat < 1114112 := by
      rcases c.valid with h1 | ⟨h1, h2⟩
      · exact Nat.lt_trans h1 (by norm_num)
      · exact h2
    exact percentTokens_encodeBytes _ (utf8Bytes_lt_256 c.toNat hv) r

theorem parseUtf8_shrink (ts : List PToken) (c : Char) (r : List PToken)
    (h : parseUtf8 ts = some (c, r)) : r.length < ts.length := by
  match ts with
  | [] => simp [parseUtf8] at h
  | PToken.raw c2 :: ts1 =>
    simp [parseUtf8] at h
    obtain ⟨h1, h2⟩ := h
    subst h2
    simp
  | PToken.byte b0 :: ts1 =>
    simp only [parseUtf8] at h
    split at h
    · simp at h
      obtain ⟨h1, h2⟩ := h
      subst h2
      simp
    · split at h
      · simp at h
      · split at h
        · match ts1 with
          | [] => simp at h
          | PToken.raw c2 :: ts2 => simp at h
          | PToken.byte b1 :: ts2 =>
            simp only at h
            split at h
            · simp at h
              obtain ⟨h1, h2⟩ := h
              subst h2
              simp
              omega
            · simp at h
        · split at h
          · match ts1 with
            | [] => simp at h
            | PToken.raw c2 :: ts2 => simp at h
            | [PToken.byte b1] => simp at h
            | PToken.byte b1 :: PToken.raw c2 :: ts2 => simp at h
            | PToken.byte b1 :: PToken.byte b2 :: ts2 =>
              simp only at h
              split at h
              · simp at h
                obtain ⟨h1, h2⟩ := h
                subst h2
                simp
                omega
              · simp at h
          · split at h
            · match ts1 with
              | [] => simp at h
              | PToken.raw c2 :: ts2 => simp at h
              | [PToken.byte b1] => simp at h
              | PToken.byte b1 :: PToken.raw c2 :: ts2 => simp at h
              | [PToken.byte b1, PToken.byte b2] => simp at h
              | PToken.byte b1 :: PToken.byte b2 :: PToken.raw c2 :: ts2 => simp at h
              | PToken.byte b1 :: PToken.byte b2 :: PToken.byte b3 :: ts2 =>
                simp only at h
                split at h
                · simp at h
                  obtain ⟨h1, h2⟩ := h
                  subst h2
                  simp
                  omega
                · simp at h
            · simp at h

theorem utf8AssembleGo_fuel (f1 f2 : Nat) (l : List PToken)
    (h1 : l.length ≤ f1) (h2 : l.length ≤ f2) :
    utf8AssembleGo f1 l = utf8AssembleGo f2 l := by
  induction f1 generalizing f2 l with
  | zero =>
    match l with
    | [] => cases f2 <;> rfl
    | t :: ts => simp at h1
  | succ f ih =>
    match l with
    | [] => cases f2 <;> rfl
    | t :: ts =>
      match f2 with
      | 0 => simp at h2
      | Nat.succ f2p =>
        simp only [utf8AssembleGo]
        cases hp : parseUtf8 (t :: ts) with
        | none => rfl
        | some p =>
          have hs := parseUtf8_shrink (t :: ts) p.1 p.2 (by rw [hp])
          simp only [List.length_cons] at h1 h2 hs
          show (utf8AssembleGo f p.2).map (fun cs => p.1 :: cs) =
            (utf8AssembleGo f2p p.2).map (fun cs => p.1 :: cs)
          rw [ih f2p p.2 (by omega) (by omega)]

theorem utf8Assemble_step (l : List PToken) (c : Char) (r : List PToken)
    (h : parseUtf8 l = some (c, r)) :
    utf8Assemble l = (utf8Assemble r).map (fun cs => c :: cs) := by
  match l with
  | [] => simp [parseUtf8] at h
  | t :: ts =>
    have hs := parseUtf8_shrink (t :: ts) c r h
    simp only [List.length_cons] at hs
    unfold utf8Assemble
    simp only [List.length_cons, utf8AssembleGo, h]
    rw [utf8AssembleGo_fuel ts.length r.length r (by omega) (le_refl _)]

theorem isContByte_of (b : Nat) (h1 : 128 ≤ b) (h2 : b < 192) : isContByte b = true := by
  simp only [isContByte, Bool.and_eq_true, decide_eq_true_eq]
  omega

theorem parseUtf8_tokensOfChar (c : Char) (ts : List PToken) :
    parseUtf8 (tokensOfChar c ++ ts) = some (c, ts) := by
  by_cases hu : isUnreservedChar c = true
  · simp [tokensOfChar, hu, parseUtf8]
  · simp only [tokensOfChar, if_neg hu]
    have hval : c.toNat < 1114112 := by
      rcases c.valid with hx | ⟨hx, hy⟩
      · exact Nat.lt_trans hx (by norm_num)
      · exact hy
    rcases Nat.lt_or_ge c.toNat 128 with h1 | h1
    · simp only [utf8Bytes, if_pos h1, List.map_cons, List.map_nil, List.cons_append,
        List.nil_append]
      simp only [parseUtf8, if_pos h1, Char.ofNat_toNat]
    · rcases Nat.lt_or_ge c.toNat 2048 with h2 | h2
      · simp only [utf8Bytes, if_neg (by omega : ¬ c.toNat < 128), if_pos h2, List.map_cons,
          List.map_nil, List.cons_append, List.nil_append]
        simp only [parseUtf8, if_neg (by omega : ¬ 192 + c.toNat / 64 < 128),
          if_neg (by omega : ¬ 192 + c.toNat / 64 < 192),
          if_pos (by omega : 192 + c.toNat / 64 < 224),
          isContByte_of (128 + c.toNat % 64) (by omega) (by omega), if_true]
        have harith : (192 + c.toNat / 64 - 192) * 64 + (128 + c.toNat % 64 - 128) = c.toNat := by
          omega
        rw [harith, Char.ofNat_toNat]
      · rcases Nat.lt_or_ge c.toNat 65536 with h3 | h3
        · simp only [utf8Bytes, if_neg (by omega : ¬ c.toNat < 128),
            if_neg (by omega : ¬ c.toNat < 2048), if_pos h3, List.map_cons,
            List.map_nil, List.cons_append, List.nil_append]
          simp only [parseUtf8, if_neg (by omega : ¬ 224 + c.toNat / 4096 < 128),
            if_neg (by omega : ¬ 224 + c.toNat / 4096 < 192),
            if_neg (by omega : ¬ 224 + c.toNat / 4096 < 224),
            if_pos (by omega : 224 + c.toNat / 4096 < 240),
            isContByte_of (128 + c.toNat / 64 % 64) (by omega) (by omega),
            isContByte_of (128 + c.toNat % 64) (by omega) (by omega), Bool.and_self, if_true]
          have harith : (224 + c.toNat / 4096 - 224) * 4096 +
              (128 + c.toNat / 64 % 64 - 128) * 64 + (128 + c.toNat % 64 - 128) = c.toNat := by
            omega
          rw [harith, Char.ofNat_toNat]
        · simp only [utf8Bytes, if_neg (by omega : ¬ c.toNat < 128),
            if_neg (by omega : ¬ c.toNat < 2048), if_neg (by omega : ¬ c.toNat < 65536),
            List.map_cons, List.map_nil, List.cons_append, List.nil_append]
          simp only [parseUtf8, if_neg (by omega : ¬ 240 + c.toNat / 262144 < 128),
            if_neg (by omega : ¬ 240 + c.toNat / 262144 < 192),
            if_neg (by omega : ¬ 240 + c.toNat / 262144 < 224),
            if_neg (by omega : ¬ 240 + c.toNat / 262144 < 240),
            if_pos (by omega : 240 + c.toNat / 262144 < 248),
            isContByte_of (128 + c.toNat / 4096 % 64) (by omega) (by omega),
            isContByte_of (128 + c.toNat / 64 % 64) (by omega) (by omega),
            isContByte_of (128 + c.toNat % 64) (by omega) (by omega), Bool.and_self, if_true]
          have harith : (240 + c.toNat / 262144 - 240) * 262144 +
              (128 + c.toNat / 4096 % 64 - 128) * 4096 +
              (128 + c.toNat / 64 % 64 - 128) * 64 + (128 + c.toNat % 64 - 128) = c.toNat := by
            omega
          rw [harith, Char.ofNat_toNat]

theorem utf8Assemble_tokensList (cs : List Char) (ts : List PToken) :
    utf8Assemble (tokensList cs ++ ts) = (utf8Assemble ts).map (fun l => cs ++ l) := by
  induction cs with
  | nil =>
    simp only [tokensList, List.flatMap_nil, List.nil_append]
    cases utf8Assemble ts <;> rfl
  | cons c cs ih =>
    have hstep : parseUtf8 (tokensOfChar c ++ (tokensList cs ++ ts)) =
        some (c, tokensList cs ++ ts) := parseUtf8_tokensOfChar c _
    have : tokensList (c :: cs) ++ ts = tokensOfChar c ++ (tokensList cs ++ ts) := by
      simp [tokensList]
    rw [this, utf8Assemble_step _ c _ hstep, ih]
    cases utf8Assemble ts <;> rfl

theorem percentTokens_encodeList (cs : List Char) (r : List Char) :
    percentTokens (encodeList cs ++ r) =
      (percentTokens r).map (fun ts => tokensList cs ++ ts) := by
  induction cs with
  | nil =>
    simp only [encodeList, List.nil_append, tokensList, List.flatMap_nil]
    cases percentTokens r <;> rfl
  | cons c cs ih =>
    have : encodeList (c :: cs) ++ r = encodeChar c ++ (encodeList cs ++ r) := by
      simp [encodeList]
    rw [this, percentTokens_encodeChar, ih]
    have : tokensList (c :: cs) = tokensOfChar c ++ tokensList cs := by
      simp [tokensList]
    rw [this]
    cases percentTokens r <;> simp

theorem decode_encodeList (cs : List Char) :
    decodeURIComponentChars (encodeList cs) = some cs := by
  unfold decodeURIComponentChars
  have h1 : percentTokens (encodeList cs ++ []) =
      (percentTokens ([] : List Char)).map (fun ts => tokensList cs ++ ts) :=
    percentTokens_encodeList cs []
  simp only [List.append_nil] at h1
  rw [h1]
  show utf8Assemble (tokensList cs ++ []) = some cs
  rw [utf8Assemble_tokensList cs []]
  simp [utf8Assemble, utf8AssembleGo]

theorem encodeList_injective (cs1 cs2 : List Char) (h : encodeList cs1 = encodeList cs2) :
    cs1 = cs2 := by
  have h1 := decode_encodeList cs1
  rw [h] at h1
  rw [decode_encodeList cs2] at h1
  exact (Option.some_injective _ h1).symm

theorem hexDigitChar_ne_colon (d : Nat) (h : d < 16) : ¬(hexDigitChar d = ':') := by
  interval_cases d <;> decide

theorem colon_not_mem_encodeChar (c : Char) : ¬(':' ∈ encodeChar c) := by
  intro hmem
  by_cases hu : isUnreservedChar c = true
  · simp only [encodeChar, if_pos hu, List.mem_singleton] at hmem
    subst hmem
    exact absurd hu (by decide)
  · simp only [encodeChar, if_neg hu, List.mem_flatMap] at hmem
    obtain ⟨b, hb, hmem2⟩ := hmem
    have hval : c.toNat < 1114112 := by
      rcases c.valid with hx | ⟨hx, hy⟩
      · exact Nat.lt_trans hx (by norm_num)
      · exact hy
    have hb256 := utf8Bytes_lt_256 c.toNat hval b hb
    simp only [encodeByteChars, List.mem_cons, List.mem_singleton] at hmem2
    rcases hmem2 with h1 | h1 | h1
    · exact absurd h1.symm (by decide)
    · exact hexDigitChar_ne_colon (b / 16) (by omega) h1.symm
    · rcases h1 with h1 | h1
      · exact hexDigitChar_ne_colon (b % 16) (by omega) h1.symm
      · simp at h1

theorem colon_not_mem_encodeList (cs : List Char) : ¬(':' ∈ encodeList cs) := by
  induction cs with
  | nil => simp [encodeList]
  | cons c cs ih =>
    simp only [encodeList, List.mem_append]
    intro hmem
    rcases hmem with h1 | h1
    · exact colon_not_mem_encodeChar c h1
    · exact ih h1

theorem takeWhile_until_colon (l r : List Char) (h : ¬(':' ∈ l)) :
    List.takeWhile (fun c => c != ':') (l ++ ':' :: r) = l := by
  induction l with
  | nil => simp [List.takeWhile]
  | cons c cs ih =>
    have hc : (c != ':') = true := by
      simp only [bne_iff_ne, ne_eq]
      intro he
      exact h (by simp [he])
    simp only [List.cons_append, List.takeWhile_cons, hc, if_true]
    rw [ih (fun hm => h (by simp [hm]))]

theorem append_colon_inj (a b c d : List Char) (ha : ¬(':' ∈ a)) (hc : ¬(':' ∈ c))
    (h : a ++ ':' :: b = c ++ ':' :: d) : a = c ∧ b = d := by
  induction a generalizing c with
  | nil =>
    match c with
    | [] =>
      simp only [List.nil_append, List.cons.injEq] at h
      exact ⟨rfl, h.2⟩
    | x :: c2 =>
      simp only [List.nil_append, List.cons_append, List.cons.injEq] at h
      exact absurd (show ':' ∈ x :: c2 by rw [h.1]; exact List.mem_cons_self x c2) hc
  | cons x a2 ih =>
    match c with
    | [] =>
      simp only [List.cons_append, List.nil_append, List.cons.injEq] at h
      exact absurd (show ':' ∈ x :: a2 by rw [← h.1]; exact List.mem_cons_self x a2) ha
    | y :: c2 =>
      simp only [List.cons_append, List.cons.injEq] at h
      obtain ⟨hxy, hrest⟩ := h
      have hr := ih c2 (fun hm => ha (List.mem_cons_of_mem x hm))
        (fun hm => hc (List.mem_cons_of_mem y hm)) hrest
      exact ⟨by rw [hxy, hr.1], hr.2⟩

/-- C5: for every topic string and schema string (all Lean strings consist of
Unicode scalar values, so none contains characters that corrupt
percent-encoding), `unnamespacetopic (namespaceTopic topic schema)` returns
the original topic string, and `namespaceTopic` is injective over
(topic, schema) pairs. -/
theorem claim_C5_namespace_roundtrip_injective :
    (∀ topic schema : String, unnamespacetopic (namespaceTopic topic schema) = some topic) ∧
    (∀ t1 s1 t2 s2 : String,
      namespaceTopic t1 s1 = namespaceTopic t2 s2 → t1 = t2 ∧ s1 = s2) := by
  constructor
  · intro topic schema
    unfold unnamespacetopic namespaceTopic
    show (decodeURIComponentChars
      (List.takeWhile (fun c => c != ':')
        (encodeList topic.data ++ ':' :: encodeList schema.data))).map String.mk = some topic
    rw [takeWhile_until_colon _ _ (colon_not_mem_encodeList topic.data)]
    rw [decode_encodeList]
    show some (String.mk topic.data) = some topic
    cases topic
    rfl
  · intro t1 s1 t2 s2 h
    unfold namespaceTopic at h
    have hdata : encodeList t1.data ++ ':' :: encodeList s1.data =
        encodeList t2.data ++ ':' :: encodeList s2.data := congrArg String.data h
    have hsplit := append_colon_inj _ _ _ _ (colon_not_mem_encodeList t1.data)
      (colon_not_mem_encodeList t2.data) hdata
    have ht : t1.data = t2.data := encodeList_injective _ _ hsplit.1
    have hs : s1.data = s2.data := encodeList_injective _ _ hsplit.2
    exact ⟨congrArg String.mk ht, congrArg String.mk hs⟩

/-- Witness for C5 at concrete inputs. -/
theorem claim_C5_witness :
    unnamespacetopic (namespaceTopic "/camera image" "foxglove.Grid") = some "/camera image" ∧
    ("/cam" = "/cam" ∧ "sensor_msgs/Image" = "sensor_msgs/Image") :=
  ⟨claim_C5_namespace_roundtrip_injective.1 "/camera image" "foxglove.Grid",
   claim_C5_namespace_roundtrip_injective.2 "/cam" "sensor_msgs/Image" "/cam"
     "sensor_msgs/Image" rfl⟩

theorem lookupA_setA {α : Type} (k k2 : String) (v : α) (m : List (String × α)) :
    lookupA k (setA k2 v m) = if k2 = k then some v else lookupA k m := by
  induction m with
  | nil => simp [setA, lookupA]
  | cons e m ih =>
    obtain ⟨k3, v3⟩ := e
    by_cases h32 : k3 = k2
    · subst h32
      simp only [setA, if_pos rfl, lookupA]
      by_cases h2k : k3 = k
      · simp [h2k]
      · simp [h2k, lookupA]
    · simp only [setA, if_neg h32, lookupA]
      by_cases h3k : k3 = k
      · subst h3k
        have : ¬(k2 = k3) := fun he => h32 he.symm
        simp [this]
      · simp only [if_neg h3k]
        exact ih

theorem lookupA_eq_none {α : Type} (k : String) (m : List (String × α))
    (h : ¬(k ∈ m.map Prod.fst)) : lookupA k m = none := by
  induction m with
  | nil => rfl
  | cons e m ih =>
    obtain ⟨k2, v2⟩ := e
    simp only [List.map_cons, List.mem_cons] at h
    push_neg at h
    have hne : ¬(k2 = k) := fun he => h.1 he.symm
    simp only [lookupA, if_neg hne]
    exact ih h.2

theorem uniqAux_congr {α : Type} [DecidableEq α] (s1 s2 : List α)
    (h : ∀ x : α, x ∈ s1 ↔ x ∈ s2) (l : List α) : uniqAux s1 l = uniqAux s2 l := by
  induction l generalizing s1 s2 with
  | nil => rfl
  | cons a l ih =>
    simp only [uniqAux]
    by_cases ha : a ∈ s1
    · rw [if_pos ha, if_pos ((h a).mp ha)]
      exact ih s1 s2 h
    · rw [if_neg ha, if_neg (fun hx => ha ((h a).mpr hx))]
      rw [ih (a :: s1) (a :: s2) (fun x => by simp [h x])]

theorem uniqAux_append {α : Type} [DecidableEq α] (l1 l2 seen : List α) :
    uniqAux seen (l1 ++ l2) = uniqAux seen l1 ++ uniqAux (l1 ++ seen) l2 := by
  induction l1 generalizing seen with
  | nil => simp [uniqAux]
  | cons a l1 ih =>
    simp only [List.cons_append, uniqAux, List.append_eq]
    by_cases ha : a ∈ seen
    · rw [if_pos ha, if_pos ha, ih seen]
      rw [uniqAux_congr (l1 ++ seen) (a :: (l1 ++ seen))
        (fun x => by
          simp only [List.mem_cons, List.mem_append]
          constructor
          · intro hx
            exact Or.inr hx
          · rintro (hx | hx)
            · subst hx
              exact Or.inr ha
            · exact hx) l2]
    · rw [if_neg ha, if_neg ha, ih (a :: seen),
        uniqAux_congr (l1 ++ a :: seen) (a :: (l1 ++ seen))
          (fun x => by
            simp only [List.mem_cons, List.mem_append]
            tauto) l2]
      simp [List.cons_append]

theorem uniqAux_idem {α : Type} [DecidableEq α] (seen l : List α) :
    uniqAux seen (uniqAux seen l) = uniqAux seen l := by
  induction l generalizing seen with
  | nil => rfl
  | cons a l ih =>
    simp only [uniqAux]
    by_cases ha : a ∈ seen
    · rw [if_pos ha]
      exact ih seen
    · rw [if_neg ha]
      simp only [uniqAux, if_neg ha]
      rw [ih (a :: seen)]

theorem mem_uniqAux {α : Type} [DecidableEq α] (x : α) (seen l : List α) :
    x ∈ uniqAux seen l ↔ x ∈ l ∧ ¬(x ∈ seen) := by
  induction l generalizing seen with
  | nil => simp [uniqAux]
  | cons a l ih =>
    simp only [uniqAux]
    by_cases ha : a ∈ seen
    · rw [if_pos ha, ih]
      simp only [List.mem_cons]
      constructor
      · rintro ⟨h1, h2⟩
        exact ⟨Or.inr h1, h2⟩
      · rintro ⟨h1 | h1, h2⟩
        · subst h1
          exact absurd ha h2
        · exact ⟨h1, h2⟩
    · rw [if_neg ha]
      simp only [List.mem_cons, ih]
      constructor
      · rintro (h1 | ⟨h1, h2⟩)
        · subst h1
          exact ⟨Or.inl rfl, ha⟩
        · exact ⟨Or.inr h1, fun hx => h2 (Or.inr hx)⟩
      · rintro ⟨h1 | h1, h2⟩
        · subst h1
          exact Or.inl rfl
        · by_cases hx : x = a
          · exact Or.inl hx
          · exact Or.inr ⟨h1, fun hmem => by
              rcases hmem with hy | hy
              · exact hx hy
              · exact h2 hy⟩

theorem uniq_append_uniq {α : Type} [DecidableEq α] (l l2 : List α) :
    uniq (uniq l ++ l2) = uniq (l ++ l2) := by
  unfold uniq
  rw [uniqAux_append, uniqAux_append, uniqAux_idem]
  rw [uniqAux_congr (uniqAux [] l ++ []) (l ++ [])
    (fun x => by simp [mem_uniqAux]) l2]

theorem mergeOne_lookup (m : List (String × String)) (hd : (m.map Prod.fst).Nodup)
    (acc : List (String × List String)) (k : String) :
    lookupA k (m.foldl (fun acc2 kv =>
      setA kv.1 (uniq ((lookupA kv.1 acc2).getD [] ++ [kv.2])) acc2) acc) =
      match lookupA k m with
      | some v => some (uniq ((lookupA k acc).getD [] ++ [v]))
      | none => lookupA k acc := by
  induction m generalizing acc with
  | nil => simp [lookupA]
  | cons kv m ih =>
    obtain ⟨k1, v1⟩ := kv
    simp only [List.map_cons, List.nodup_cons] at hd
    obtain ⟨hk1, hd2⟩ := hd
    simp only [List.foldl_cons]
    rw [ih hd2]
    by_cases hk : k1 = k
    · subst hk
      rw [lookupA_eq_none k1 m hk1]
      simp only [lookupA, if_pos rfl]
      rw [lookupA_setA]
      simp
    · simp only [lookupA, if_neg hk]
      rw [lookupA_setA]
      simp only [if_neg hk]

theorem mergeOne_lookup_none (m : List (String × String)) (hd : (m.map Prod.fst).Nodup)
    (acc : List (String × List String)) (k : String) (hv : lookupA k m = none) :
    lookupA k (m.foldl (fun acc2 kv =>
      setA kv.1 (uniq ((lookupA kv.1 acc2).getD [] ++ [kv.2])) acc2) acc) =
      lookupA k acc := by
  rw [mergeOne_lookup m hd acc k, hv]

theorem mergeOne_lookup_some (m : List (String × String)) (hd : (m.map Prod.fst).Nodup)
    (acc : List (String × List String)) (k : String) (v : String)
    (hv : lookupA k m = some v) :
    lookupA k (m.foldl (fun acc2 kv =>
      setA kv.1 (uniq ((lookupA kv.1 acc2).getD [] ++ [kv.2])) acc2) acc) =
      some (uniq ((lookupA k acc).getD [] ++ [v])) := by
  rw [mergeOne_lookup m hd acc k, hv]

theorem mergeFold_lookup (maps : List (List (String × String)))
    (h : ∀ m ∈ maps, (m.map Prod.fst).Nodup)
    (acc : List (String × List String)) (k : String) :
    lookupA k (maps.foldl (fun merged m =>
      m.foldl (fun acc2 kv =>
        setA kv.1 (uniq ((lookupA kv.1 acc2).getD [] ++ [kv.2])) acc2) merged) acc) =
      (if maps.filterMap (lookupA k) = [] then lookupA k acc
       else some (uniq ((lookupA k acc).getD [] ++ maps.filterMap (lookupA k)))) := by
  induction maps generalizing acc with
  | nil => simp
  | cons m maps ih =>
    simp only [List.foldl_cons]
    have hm := h m (List.mem_cons_self m maps)
    have hrest : ∀ m2 ∈ maps, (m2.map Prod.fst).Nodup :=
      fun m2 hm2 => h m2 (List.mem_cons_of_mem m hm2)
    rw [ih hrest]
    cases hv : lookupA k m with
    | none =>
      have hfm : (m :: maps).filterMap (lookupA k) = maps.filterMap (lookupA k) := by
        simp [List.filterMap_cons, hv]
      rw [hfm, mergeOne_lookup_none m hm acc k hv]
    | some v =>
      have hfm : (m :: maps).filterMap (lookupA k) = v :: maps.filterMap (lookupA k) := by
        simp [List.filterMap_cons, hv]
      rw [hfm, mergeOne_lookup_some m hm acc k v hv]
      by_cases hrestvs : maps.filterMap (lookupA k) = []
      · simp [hrestvs]
      · rw [if_neg hrestvs, if_neg (by simp : ¬(v :: maps.filterMap (lookupA k) = []))]
        simp only [Option.getD_some]
        rw [uniq_append_uniq, List.append_assoc]
        rfl

theorem mergeMappings_lookup (maps : List (List (String × String))) (k : String)
    (h : ∀ m ∈ maps, (m.map Prod.fst).Nodup) :
    lookupA k (mergeMappings maps) =
      (if maps.filterMap (lookupA k) = [] then none
       else some (uniq (maps.filterMap (lookupA k)))) := by
  unfold mergeMappings
  rw [mergeFold_lookup maps h [] k]
  simp [lookupA]

theorem invertOne_lookup (values : List String) (srcKey : String)
    (acc : List (String × List String)) (tgt : String) :
    lookupA tgt (values.foldl (fun inv value =>
      setA value ((lookupA value inv).getD [] ++ [srcKey]) inv) acc) =
      (if (values.filter (fun v => v == tgt)).map (fun _ => srcKey) = [] then lookupA tgt acc
       else some ((lookupA tgt acc).getD [] ++
         (values.filter (fun v => v == tgt)).map (fun _ => srcKey))) := by
  induction values generalizing acc with
  | nil => simp
  | cons v values ih =>
    simp only [List.foldl_cons]
    rw [ih]
    by_cases hv : v = tgt
    · subst hv
      have hfl : List.filter (fun w => w == v) (v :: values) =
          v :: List.filter (fun w => w == v) values := by
        simp [List.filter_cons]
      rw [hfl]
      rw [lookupA_setA]
      simp only [if_pos rfl, List.map_cons, Option.getD_some, if_true, eq_self_iff_true]
      by_cases hrest : (values.filter (fun w => w == v)).map (fun _ => srcKey) = []
      · simp [hrest]
      · rw [if_neg hrest, if_neg (by simp : ¬(srcKey ::
          (values.filter (fun w => w == v)).map (fun _ => srcKey) = []))]
        rw [List.append_assoc]
        rfl
    · have hfl : List.filter (fun w => w == tgt) (v :: values) =
          List.filter (fun w => w == tgt) values := by
        simp [List.filter_cons, hv]
      rw [hfl, lookupA_setA, if_neg hv]

theorem invertFold_lookup (es : List (String × List String))
    (acc : List (String × List String)) (tgt : String) :
    lookupA tgt (es.foldl (fun inverted kv =>
      kv.2.foldl (fun inv value =>
        setA value ((lookupA value inv).getD [] ++ [kv.1]) inv) inverted) acc) =
      (if inverseSources es tgt = [] then lookupA tgt acc
       else some ((lookupA tgt acc).getD [] ++ inverseSources es tgt)) := by
  induction es generalizing acc with
  | nil => simp [inverseSources]
  | cons kv es ih =>
    simp only [List.foldl_cons]
    rw [ih]
    have hunf : inverseSources (kv :: es) tgt =
        (kv.2.filter (fun v => v == tgt)).map (fun _ => kv.1) ++ inverseSources es tgt := by
      simp [inverseSources]
    rw [hunf, invertOne_lookup kv.2 kv.1 acc tgt]
    by_cases hhead : (kv.2.filter (fun v => v == tgt)).map (fun _ => kv.1) = []
    · rw [hhead]
      simp only [List.nil_append]
      rfl
    · by_cases hrest : inverseSources es tgt = []
      · rw [hrest]
        simp only [List.append_nil]
        rw [if_neg hhead, if_pos trivial]
      · rw [if_neg hrest, if_neg hhead,
          if_neg (fun hx => hhead (List.append_eq_nil.mp hx).1)]
        simp only [Option.getD_some]
        rw [List.append_assoc]

theorem invertMapping_lookup (es : List (String × List String)) (tgt : String) :
    (invertMapping (TopicMapping.table es)).get tgt =
      (if inverseSources es tgt = [] then none else some (inverseSources es tgt)) := by
  show lookupA tgt (es.foldl (fun inverted kv =>
      kv.2.foldl (fun inv value =>
        setA value ((lookupA value inv).getD [] ++ [kv.1]) inv) inverted) []) = _
  rw [invertFold_lookup es [] tgt]
  simp [lookupA]

/-- C2: the merged mapping assigns to each source topic the de-duplicated
union, in mapper-registration order, of every mapper's proposed target
(none when no mapper proposes one); merging `A → B` with a later `A → C`
yields `A → [B, C]`; and applying a mapping `A → [B, C]` to a message batch
replaces each message on `A` by its copy on `B` followed by its copy on `C`
(differing from the original only in the topic field) while messages on
unmapped topics pass through. -/
theorem claim_C2_merge_and_message_fanout :
    (∀ (maps : List (List (String × String))) (k : String),
      (∀ m ∈ maps, (m.map Prod.fst).Nodup) →
      lookupA k (mergeMappings maps) =
        (if maps.filterMap (lookupA k) = [] then none
         else some (uniq (maps.filterMap (lookupA k))))) ∧
    (∀ a b c : String, ¬(b = c) →
      mergeMappings [[(a, b)], [(a, c)]] = [(a, [b, c])]) ∧
    (∀ (a b c : String) (msgs : List MessageEvent),
      mapMessages msgs (TopicMapping.table [(a, [b, c])]) =
        msgs.flatMap (fun msg =>
          if msg.topic = a then [{ msg with topic := b }, { msg with topic := c }]
          else [msg])) := by
  refine ⟨fun maps k h => mergeMappings_lookup maps k h, ?_, ?_⟩
  · intro a b c hbc
    have hcb : ¬(c = b) := fun he => hbc he.symm
    simp [mergeMappings, lookupA, setA, uniq, uniqAux, hcb]
  · intro a b c msgs
    show msgs.flatMap _ = msgs.flatMap _
    apply List.flatMap_congr
    intro msg _
    by_cases ha : a = msg.topic
    · simp only [lookupA, if_pos ha, if_pos ha.symm]
      rfl
    · have ham : ¬(msg.topic = a) := fun he => ha he.symm
      simp only [lookupA, if_neg ha, if_neg ham]

/-- Witness for C2 at concrete inputs. -/
theorem claim_C2_witness :
    lookupA "A" (mergeMappings [[("A", "B")], [("A", "C")]]) =
      (if [[("A", "B")], [("A", "C")]].filterMap (lookupA "A") = [] then none
       else some (uniq ([[("A", "B")], [("A", "C")]].filterMap (lookupA "A")))) ∧
    mergeMappings [[("A", "B")], [("A", "C")]] = [("A", ["B", "C"])] ∧
    mapMessages [⟨"A", 1⟩, ⟨"Z", 2⟩] (TopicMapping.table [("A", ["B", "C"])]) =
      [MessageEvent.mk "A" 1, MessageEvent.mk "Z" 2].flatMap (fun msg =>
        if msg.topic = "A" then [{ msg with topic := "B" }, { msg with topic := "C" }]
        else [msg]) :=
  ⟨claim_C2_merge_and_message_fanout.1 [[("A", "B")], [("A", "C")]] "A" (by decide),
   claim_C2_merge_and_message_fanout.2.1 "A" "B" "C" (by decide),
   claim_C2_merge_and_message_fanout.2.2 "A" "B" "C" [⟨"A", 1⟩, ⟨"Z", 2⟩]⟩

/-- C8: when no mapper proposes any rename for the current inputs,
`buildMapping` returns the `EmptyMapping` identity sentinel, and every
transform function (topics, messages, blocks, keyed topic sets,
subscriptions) returns its input unchanged — the very same list. -/
theorem claim_C8_identity_sentinel (inputs : MappingInputs)
    (h : ∀ mapper ∈ inputs.mappers,
      mapper (inputs.topics.getD []) inputs.globalVariables = []) :
    buildMapping inputs = TopicMapping.EmptyMapping ∧
    (∀ topics, mapTopics topics (buildMapping inputs) = topics) ∧
    (∀ messages, mapMessages messages (buildMapping inputs) = messages) ∧
    (∀ blocks, mapBlocks blocks (buildMapping inputs) = blocks) ∧
    (∀ keyed, mapKeyedTopics keyed (buildMapping inputs) = keyed) ∧
    (∀ subs, mapSubscriptions inputs subs = subs) := by
  have hb : buildMapping inputs = TopicMapping.EmptyMapping := by
    unfold buildMapping
    have hany : (inputs.mappers.map (fun mapper =>
        mapper (inputs.topics.getD []) inputs.globalVariables)).any
          (fun m => !m.isEmpty) = false := by
      rw [List.any_eq_false]
      intro m hm
      rw [List.mem_map] at hm
      obtain ⟨mapper, hmem, heq⟩ := hm
      rw [← heq, h mapper hmem]
      simp
    simp [hany]
  refine ⟨hb, fun topics => by rw [hb]; rfl, fun messages => by rw [hb]; rfl,
    fun blocks => by rw [hb]; rfl, fun keyed => by rw [hb]; rfl,
    fun subs => by unfold mapSubscriptions; rw [hb]; rfl⟩

/-- Witness for C8 at concrete inputs. -/
theorem claim_C8_witness :
    buildMapping ⟨[fun _ _ => []], none, 0⟩ = TopicMapping.EmptyMapping ∧
    mapTopics [⟨"t", "s", none, none⟩] (buildMapping ⟨[fun _ _ => []], none, 0⟩) =
      [⟨"t", "s", none, none⟩] := by
  have h := claim_C8_identity_sentinel ⟨[fun _ _ => []], none, 0⟩ (by
    intro m hm
    rw [List.mem_singleton] at hm
    subst hm
    rfl)
  exact ⟨h.1, h.2.1 _⟩

/-- C6 (counterexample): the mapping `{A → [B], C → [B]}` contains `A → B`,
yet inverting it yields `B → [A, C]`, not `B → [A]`, and the subscription
transform fans a request for `B` out to two requests (for `A` and for `C`)
rather than one request for `A`. -/
theorem claim_C6_counterexample :
    ("B" ∈ ((TopicMapping.table [("A", ["B"]), ("C", ["B"])]).get "A").getD []) ∧
    ¬((invertMapping (TopicMapping.table [("A", ["B"]), ("C", ["B"])])).get "B" =
        some ["A"]) ∧
    ¬(mapSubscriptionsCore (TopicMapping.table [("A", ["B"]), ("C", ["B"])])
        [⟨"B", 0⟩] = [SubscribePayload.mk "A" 0]) := by
  refine ⟨?_, ?_, ?_⟩ <;> decide

/-- C6 (amended): for every mapping in which the target `B` occurs exactly
once among all proposed target lists — in source `A`'s list — inverting the
mapping yields `B → [A]`, and the subscription transform rewrites a
subscription for `B` into one subscription for `A` with all other payload
fields preserved; a subscription whose topic appears as no target passes
through unchanged. -/
theorem claim_C6_invert_singleton (es : List (String × List String)) (a b : String)
    (h : inverseSources es b = [a]) :
    (invertMapping (TopicMapping.table es)).get b = some [a] ∧
    (∀ sub : SubscribePayload, sub.topic = b →
      mapSubscriptionsCore (TopicMapping.table es) [sub] = [{ sub with topic := a }]) ∧
    (∀ sub : SubscribePayload, inverseSources es sub.topic = [] →
      mapSubscriptionsCore (TopicMapping.table es) [sub] = [sub]) := by
  have hget : (invertMapping (TopicMapping.table es)).get b = some [a] := by
    rw [invertMapping_lookup, h]
    simp
  refine ⟨hget, ?_, ?_⟩
  · intro sub hsub
    show List.flatMap [sub] _ = _
    simp only [List.flatMap_cons, List.flatMap_nil, List.append_nil]
    rw [hsub, hget]
    rfl
  · intro sub hsub
    show List.flatMap [sub] _ = _
    simp only [List.flatMap_cons, List.flatMap_nil, List.append_nil]
    rw [invertMapping_lookup, hsub]
    simp

/-- Witness for the amended C6 at concrete inputs. -/
theorem claim_C6_witness :
    (invertMapping (TopicMapping.table [("A", ["B"])])).get "B" = some ["A"] ∧
    mapSubscriptionsCore (TopicMapping.table [("A", ["B"])]) [⟨"B", 7⟩] =
      [SubscribePayload.mk "A" 7] ∧
    mapSubscriptionsCore (TopicMapping.table [("A", ["B"])]) [⟨"Z", 9⟩] =
      [SubscribePayload.mk "Z" 9] := by
  have h := claim_C6_invert_singleton [("A", ["B"])] "A" "B" (by decide)
  exact ⟨h.1, h.2.1 ⟨"B", 7⟩ rfl, h.2.2 ⟨"Z", 9⟩ (by decide)⟩

/-- C10: a merged mapping that fans `A` out to `[B, C]` (one mapper claiming
`A → B`, a later one `A → C`) turns a subscription list naming both `B` and
`C` into two separate forwarded payloads that both name `A` — duplicates are
not coalesced. -/
theorem claim_C10_fanout_subscriptions (a b c : String) (hbc : ¬(b = c)) (x y : Nat) :
    mapSubscriptions
      ⟨[fun _ _ => [(a, b)], fun _ _ => [(a, c)]], some [], 0⟩
      [⟨b, x⟩, ⟨c, y⟩] = [⟨a, x⟩, ⟨a, y⟩] := by
  have hcb : ¬(c = b) := fun he => hbc he.symm
  have hmerge : mergeMappings [[(a, b)], [(a, c)]] = [(a, [b, c])] :=
    claim_C2_merge_and_message_fanout.2.1 a b c hbc
  have hbuild : buildMapping ⟨[fun _ _ => [(a, b)], fun _ _ => [(a, c)]], some [], 0⟩ =
      TopicMapping.table (mergeMappings [[(a, b)], [(a, c)]]) := rfl
  unfold mapSubscriptions
  rw [hbuild, hmerge]
  have hb1 : inverseSources [(a, [b, c])] b = [a] := by
    simp [inverseSources, List.filter_cons, hcb]
  have hc1 : inverseSources [(a, [b, c])] c = [a] := by
    simp [inverseSources, List.filter_cons, hbc]
  have hgetb : (invertMapping (TopicMapping.table [(a, [b, c])])).get b = some [a] := by
    rw [invertMapping_lookup, hb1]
    simp
  have hgetc : (invertMapping (TopicMapping.table [(a, [b, c])])).get c = some [a] := by
    rw [invertMapping_lookup, hc1]
    simp
  show List.flatMap [(⟨b, x⟩ : SubscribePayload), ⟨c, y⟩] _ = _
  simp only [List.flatMap_cons, List.flatMap_nil, List.append_nil]
  rw [hgetb, hgetc]
  rfl

/-- Witness for C10 at concrete inputs. -/
theorem claim_C10_witness :
    mapSubscriptions
      ⟨[fun _ _ => [("A", "B")], fun _ _ => [("A", "C")]], some [], 0⟩
      [⟨"B", 1⟩, ⟨"C", 2⟩] = [SubscribePayload.mk "A" 1, SubscribePayload.mk "A" 2] :=
  claim_C10_fanout_subscriptions "A" "B" "C" (by decide) 1 2

/-- C3: with at least one registered mapper and no topic list observed yet,
`setSubscriptions` buffers the latest request (replacing any earlier pending
one) and forwards nothing; once a state carrying a topic list arrives, the
pending request is mapped against that topic list, forwarded, and the
pending slot is cleared; with zero mappers, `setSubscriptions` forwards the
request unchanged immediately. -/
theorem claim_C3_pending_subscriptions (st : TMPState) (subs : List SubscribePayload) :
    (st.mappers ≠ [] → st.topics = none →
      setSubscriptions st subs = ({ st with pendingSubscriptions := some subs }, none)) ∧
    (∀ (pending : List SubscribePayload) (ps : PlayerState) (ad : ActiveData),
      st.mappers ≠ [] → st.pendingSubscriptions = some pending → ps.activeData = some ad →
      (onPlayerState st ps).1.pendingSubscriptions = none ∧
      (onPlayerState st ps).2.2 =
        some (mapSubscriptions ⟨st.mappers, some ad.topics, st.globalVariables⟩ pending)) ∧
    (st.mappers = [] → setSubscriptions st subs = (st, some subs)) := by
  refine ⟨?_, ?_, ?_⟩
  · intro hm ht
    have hempty : st.mappers.isEmpty = false := by
      rw [List.isEmpty_eq_false]
      exact hm
    simp [setSubscriptions, TMPState.skipMapping, hempty, ht]
  · intro pending ps ad hm hpend had
    have hempty : st.mappers.isEmpty = false := by
      rw [List.isEmpty_eq_false]
      exact hm
    constructor <;>
      simp [onPlayerState, setSubscriptions, TMPState.skipMapping, TMPState.inputs,
        hempty, hpend, had]
  · intro hm
    simp [setSubscriptions, TMPState.skipMapping, hm]

/-- Witness for C3 at concrete inputs. -/
theorem claim_C3_witness :
    (setSubscriptions ⟨[fun _ _ => [("A", "B")]], none, 0, none⟩ [⟨"B", 1⟩] =
      ({ mappers := [fun _ _ => [("A", "B")]], topics := none, globalVariables := 0,
         pendingSubscriptions := some [⟨"B", 1⟩] }, none)) ∧
    ((onPlayerState ⟨[fun _ _ => [("A", "B")]], none, 0, some [⟨"B", 1⟩]⟩
        ⟨some ⟨[], [], none, none⟩, none⟩).1.pendingSubscriptions = none) ∧
    (setSubscriptions ⟨[], none, 0, none⟩ [⟨"B", 1⟩] =
      (⟨[], none, 0, none⟩, some [⟨"B", 1⟩])) := by
  refine ⟨?_, ?_, ?_⟩
  · exact (claim_C3_pending_subscriptions ⟨[fun _ _ => [("A", "B")]], none, 0, none⟩
      [⟨"B", 1⟩]).1 (List.cons_ne_nil _ _) rfl
  · exact ((claim_C3_pending_subscriptions ⟨[fun _ _ => [("A", "B")]], none, 0,
      some [⟨"B", 1⟩]⟩ []).2.1 [⟨"B", 1⟩] ⟨some ⟨[], [], none, none⟩, none⟩
      ⟨[], [], none, none⟩ (List.cons_ne_nil _ _) rfl rfl).1
  · exact (claim_C3_pending_subscriptions ⟨[], none, 0, none⟩ [⟨"B", 1⟩]).2.2 rfl


theorem lookupA_setA_other {α : Type} (k k2 : String) (h : ¬(k2 = k)) (v : α)
    (m : List (String × α)) : lookupA k (setA k2 v m) = lookupA k m := by
  rw [lookupA_setA, if_neg h]

theorem treeGet_treeSet_same (tree : List (Time × SynchronizationItem)) (t : Time)
    (item : SynchronizationItem) : treeGet (treeSet tree t item) t = some item := by
  induction tree with
  | nil => simp [treeSet, treeGet]
  | cons e rest ih =>
    obtain ⟨t2, it2⟩ := e
    simp only [treeSet]
    by_cases h1 : timeLt t t2 = true
    · rw [if_pos h1]
      simp [treeGet]
    · rw [if_neg h1]
      by_cases h2 : t2 = t
      · rw [if_pos h2]
        simp [treeGet]
      · rw [if_neg h2]
        simp only [treeGet, if_neg h2]
        exact ih

theorem treeGet_treeSet_other (tree : List (Time × SynchronizationItem)) (t t2 : Time)
    (h : ¬(t = t2)) (item : SynchronizationItem) :
    treeGet (treeSet tree t item) t2 = treeGet tree t2 := by
  induction tree with
  | nil => simp [treeSet, treeGet, h]
  | cons e rest ih =>
    obtain ⟨t3, it3⟩ := e
    simp only [treeSet]
    by_cases h1 : timeLt t t3 = true
    · rw [if_pos h1]
      simp only [treeGet, if_neg h]
    · rw [if_neg h1]
      by_cases h2 : t3 = t
      · rw [if_pos h2]
        subst h2
        simp only [treeGet, if_neg h]
      · rw [if_neg h2]
        simp only [treeGet]
        by_cases h3 : t3 = t2
        · rw [if_pos h3, if_pos h3]
        · rw [if_neg h3, if_neg h3]
          exact ih

theorem annInsertGroup_preserves (ns : String) (msg : AnnotationMessage)
    (tree : List (Time × SynchronizationItem)) (g : Nat × List Annot) (t : Time)
    (item : SynchronizationItem) (hget : treeGet tree t = some item) :
    ∃ item2, treeGet (annInsertGroup ns msg tree g) t = some item2 ∧
      item2.image = item.image ∧
      (∀ k, ¬(k = ns) → lookupA k item2.annotationsByNamespacedTopic =
        lookupA k item.annotationsByNamespacedTopic) := by
  unfold annInsertGroup
  by_cases hst : fromNanoSec g.1 = t
  · simp only [hst, hget]
    refine ⟨_, treeGet_treeSet_same tree t _, rfl, ?_⟩
    intro k hk
    exact lookupA_setA_other k ns (fun he => hk he.symm) _ _
  · cases hg : treeGet tree (fromNanoSec g.1) with
    | some it =>
      simp only [hg]
      refine ⟨item, ?_, rfl, fun k _ => rfl⟩
      rw [treeGet_treeSet_other tree (fromNanoSec g.1) t hst]
      exact hget
    | none =>
      simp only [hg]
      refine ⟨item, ?_, rfl, fun k _ => rfl⟩
      rw [treeGet_treeSet_other tree (fromNanoSec g.1) t hst]
      exact hget

theorem annFold_preserves (gs : List (Nat × List Annot)) (ns : String)
    (msg : AnnotationMessage) (tree : List (Time × SynchronizationItem)) (t : Time)
    (item : SynchronizationItem) (hget : treeGet tree t = some item) :
    ∃ item2, treeGet (gs.foldl (annInsertGroup ns msg) tree) t = some item2 ∧
      item2.image = item.image ∧
      (∀ k, ¬(k = ns) → lookupA k item2.annotationsByNamespacedTopic =
        lookupA k item.annotationsByNamespacedTopic) := by
  induction gs generalizing tree item with
  | nil => exact ⟨item, hget, rfl, fun k _ => rfl⟩
  | cons g gs ih =>
    simp only [List.foldl_cons]
    obtain ⟨item1, hget1, himg1, hann1⟩ := annInsertGroup_preserves ns msg tree g t item hget
    obtain ⟨item2, hget2, himg2, hann2⟩ := ih (annInsertGroup ns msg tree g) item1 hget1
    exact ⟨item2, hget2, himg2.trans himg1,
      fun k hk => (hann2 k hk).trans (hann1 k hk)⟩

/-- C9: in synchronized mode, `handleImage` at an already-indexed timestamp
only sets that entry's image (its annotation batches and every other entry
are untouched); `handleAnnotations` leaves every indexed entry's image
unchanged and, at each timestamp, changes at most the batch stored under the
incoming message's namespaced-topic key, leaving other topics' batches
untouched. -/
theorem claim_C9_targeted_updates (st : HandlerState)
    (hsync : st.config.synchronize = some true) :
    (∀ (msg : ImageMessage) (item : SynchronizationItem),
      treeGet st.tree msg.stamp = some item →
      treeGet (handleImage st msg).tree msg.stamp = some { item with image := some msg } ∧
      (∀ t, ¬(t = msg.stamp) → treeGet (handleImage st msg).tree t = treeGet st.tree t)) ∧
    (∀ (msg : AnnotationMessage) (t : Time) (item : SynchronizationItem),
      treeGet st.tree t = some item →
      ∃ item2, treeGet (handleAnnotations st msg).tree t = some item2 ∧
        item2.image = item.image ∧
        (∀ k, ¬(k = namespaceTopic msg.topic msg.schemaName) →
          lookupA k item2.annotationsByNamespacedTopic =
            lookupA k item.annotationsByNamespacedTopic)) := by
  have hcond : ¬(st.config.synchronize ≠ some true) := by
    rw [hsync]
    simp
  constructor
  · intro msg item hget
    have htree : (handleImage st msg).tree =
        treeSet st.tree msg.stamp { item with image := some msg } := by
      unfold handleImage
      rw [if_neg hcond, hget]
    constructor
    · rw [htree]
      exact treeGet_treeSet_same st.tree msg.stamp _
    · intro t ht
      rw [htree]
      exact treeGet_treeSet_other st.tree msg.stamp t (fun he => ht he.symm) _
  · intro msg t item hget
    have htree : (handleAnnotations st msg).tree =
        (groupByStamp msg.annots).foldl
          (annInsertGroup (namespaceTopic msg.topic msg.schemaName) msg) st.tree := by
      unfold handleAnnotations
      rw [if_neg hcond]
    rw [htree]
    exact annFold_preserves (groupByStamp msg.annots)
      (namespaceTopic msg.topic msg.schemaName) msg st.tree t item hget

/-- Witness for C9 at concrete inputs. -/
theorem claim_C9_witness :
    treeGet (handleImage
      ⟨⟨some true, none, none, none⟩, ⟨none, none, []⟩,
        [(⟨1, 0⟩, ⟨none, []⟩)]⟩ ⟨⟨1, 0⟩, 5⟩).tree ⟨1, 0⟩ =
      some ⟨some ⟨⟨1, 0⟩, 5⟩, []⟩ := by
  have h := (claim_C9_targeted_updates
    ⟨⟨some true, none, none, none⟩, ⟨none, none, []⟩, [(⟨1, 0⟩, ⟨none, []⟩)]⟩ rfl).1
    ⟨⟨1, 0⟩, 5⟩ ⟨none, []⟩ (by decide)
  exact h.1

theorem timeLt_irrefl (a : Time) : timeLt a a = false := by
  simp [timeLt]

theorem timeLt_iff (a b : Time) :
    timeLt a b = true ↔ a.sec < b.sec ∨ (a.sec = b.sec ∧ a.nsec < b.nsec) := by
  simp [timeLt]

theorem timeLt_asymm (a b : Time) (h : timeLt a b = true) : timeLt b a = false := by
  rw [Bool.eq_false_iff]
  intro h2
  rw [timeLt_iff] at h h2
  omega

theorem timeLt_trans (a b c : Time) (h1 : timeLt a b = true) (h2 : timeLt b c = true) :
    timeLt a c = true := by
  rw [timeLt_iff] at h1 h2 ⊢
  omega

theorem timeLt_of_not_lt_of_lt (h t e : Time) (h1 : ¬(timeLt h t = true))
    (h2 : timeLt h e = true) : timeLt e t = false := by
  rw [Bool.eq_false_iff]
  intro h3
  exact h1 (timeLt_trans h e t h2 h3)

theorem removeOlder_sorted (tree : List (Time × SynchronizationItem)) (t : Time)
    (hsort : sortedTree tree) :
    removeOlder tree t = tree.filter (fun e => !(timeLt e.1 t)) := by
  induction tree with
  | nil => rfl
  | cons e rest ih =>
    obtain ⟨t2, it2⟩ := e
    rw [sortedTree, List.pairwise_cons] at hsort
    obtain ⟨hrel, hrest⟩ := hsort
    simp only [removeOlder, List.filter_cons]
    by_cases h1 : timeLt t2 t = true
    · rw [if_pos h1, ih hrest]
      simp [h1]
    · have h1f : timeLt t2 t = false := by
        rw [Bool.eq_false_iff]
        exact h1
      rw [if_neg h1]
      simp only [h1f, Bool.not_false, if_pos]
      rw [List.filter_eq_self.mpr]
      intro e2 he2
      have := hrel e2 he2
      simp only [Bool.not_eq_eq_eq_not, Bool.not_true, Bool.not_false]
      exact timeLt_of_not_lt_of_lt t2 t e2.1 h1 this

theorem findValidEntry_append (l : List (Time × SynchronizationItem))
    (x : Time × SynchronizationItem) (visible : List String) :
    findValidEntry (l ++ [x]) visible =
      (if qualifiesEntry visible x = true then some x else findValidEntry l visible) := by
  unfold findValidEntry
  rw [List.foldl_append]
  rfl

theorem findValidEntry_charact (tree : List (Time × SynchronizationItem))
    (visible : List String) (hsort : sortedTree tree) :
    (findValidEntry tree visible = none → ∀ e ∈ tree, qualifiesEntry visible e = false) ∧
    (∀ e, findValidEntry tree visible = some e →
      e ∈ tree ∧ qualifiesEntry visible e = true ∧
      ∀ e2 ∈ tree, qualifiesEntry visible e2 = true → timeLt e.1 e2.1 = false) := by
  induction tree using List.reverseRecOn with
  | nil =>
    constructor
    · intro _ e he
      simp at he
    · intro e he
      simp [findValidEntry] at he
  | append_singleton l x ih =>
    rw [sortedTree, List.pairwise_append] at hsort
    obtain ⟨hl, _, hcross⟩ := hsort
    have ihl := ih hl
    rw [findValidEntry_append]
    by_cases hq : qualifiesEntry visible x = true
    · rw [if_pos hq]
      constructor
      · intro he
        cases he
      · intro e he
        have hex : e = x := by
          injection he with he2
          exact he2.symm
        subst hex
        refine ⟨by simp, hq, ?_⟩
        intro e2 he2 _
        rcases List.mem_append.mp he2 with h2 | h2
        · exact timeLt_asymm e2.1 e.1 (hcross e2 h2 e (by simp))
        · rw [List.mem_singleton] at h2
          subst h2
          exact timeLt_irrefl e2.1
    · rw [if_neg hq]
      constructor
      · intro he e he2
        rcases List.mem_append.mp he2 with h2 | h2
        · exact ihl.1 he e h2
        · rw [List.mem_singleton] at h2
          subst h2
          rw [Bool.eq_false_iff]
          exact hq
      · intro e he
        obtain ⟨hmem, hqe, hmax⟩ := ihl.2 e he
        refine ⟨List.mem_append.mpr (Or.inl hmem), hqe, ?_⟩
        intro e2 he2 hq2
        rcases List.mem_append.mp he2 with h2 | h2
        · exact hmax e2 h2 hq2
        · rw [List.mem_singleton] at h2
          subst h2
          exact absurd hq2 hq

theorem lookupA_isSome_iff {α : Type} (k : String) (m : List (String × α)) :
    (lookupA k m).isSome = true ↔ k ∈ m.map Prod.fst := by
  induction m with
  | nil => simp [lookupA]
  | cons e rest ih =>
    obtain ⟨k2, v⟩ := e
    simp only [lookupA, List.map_cons, List.mem_cons]
    by_cases h : k2 = k
    · subst h
      simp
    · rw [if_neg h]
      rw [ih]
      constructor
      · intro hm
        exact Or.inr hm
      · rintro (hm | hm)
        · exact absurd hm.symm h
        · exact hm

theorem hasOnlyVisible_iff (visible : List String) (item : SynchronizationItem)
    (hv : visible.Nodup)
    (hk : (item.annotationsByNamespacedTopic.map Prod.fst).Nodup) :
    hasOnlyVisible visible item = true ↔
      ∀ k, (k ∈ visible ↔ (lookupA k item.annotationsByNamespacedTopic).isSome = true) := by
  unfold hasOnlyVisible
  rw [Bool.and_eq_true, beq_iff_eq, List.all_eq_true]
  constructor
  · rintro ⟨hlen, hall⟩ k
    have hsub : visible.toFinset ⊆
        (item.annotationsByNamespacedTopic.map Prod.fst).toFinset := by
      intro x hx
      rw [List.mem_toFinset] at hx ⊢
      rw [← lookupA_isSome_iff]
      exact hall x hx
    have hcards : (item.annotationsByNamespacedTopic.map Prod.fst).toFinset.card ≤
        visible.toFinset.card := by
      rw [List.toFinset_card_of_nodup hv, List.toFinset_card_of_nodup hk]
      rw [hlen, List.length_map]
    have heq := Finset.eq_of_subset_of_card_le hsub hcards
    rw [lookupA_isSome_iff]
    constructor
    · intro hkv
      rw [← List.mem_toFinset, heq, List.mem_toFinset] at hkv
      exact hkv
    · intro hks
      rw [← List.mem_toFinset, heq, List.mem_toFinset]
      exact hks
  · intro hiff
    have hmemiff : ∀ k, k ∈ visible ↔
        k ∈ item.annotationsByNamespacedTopic.map Prod.fst := by
      intro k
      rw [hiff k, lookupA_isSome_iff]
    have hfeq : visible.toFinset =
        (item.annotationsByNamespacedTopic.map Prod.fst).toFinset := by
      apply Finset.ext
      intro x
      rw [List.mem_toFinset, List.mem_toFinset]
      exact hmemiff x
    constructor
    · have := congrArg Finset.card hfeq
      rw [List.toFinset_card_of_nodup hv, List.toFinset_card_of_nodup hk,
        List.length_map] at this
      exact this
    · intro x hx
      rw [lookupA_isSome_iff]
      exact (hmemiff x).mp hx

/-- C1: in synchronized mode, `getRenderState` returns the newest index
entry that has an image and whose buffered annotation-topic key set exactly
equals the currently-visible annotation-topic set; every strictly older
entry is then evicted while the winner and newer entries are retained; when
no entry qualifies, the returned state holds only the stored calibration. -/
theorem claim_C1_synchronized_scan (st : HandlerState)
    (hsync : st.config.synchronize = some true)
    (hsort : sortedTree st.tree)
    (hv : (visibleAnnotations st.config).Nodup)
    (hkeys : ∀ e ∈ st.tree,
      ((e : Time × SynchronizationItem).2.annotationsByNamespacedTopic.map Prod.fst).Nodup) :
    (findValidEntry st.tree (visibleAnnotations st.config) = none →
      (∀ e ∈ st.tree, ¬((e : Time × SynchronizationItem).2.image.isSome = true ∧
        ∀ k, (k ∈ visibleAnnotations st.config ↔
          (lookupA k e.2.annotationsByNamespacedTopic).isSome = true))) ∧
      (getRenderState st).1 = ⟨none, st.lastReceivedMessages.cameraInfo, none⟩ ∧
      (getRenderState st).2.tree = st.tree) ∧
    (∀ e, findValidEntry st.tree (visibleAnnotations st.config) = some e →
      e ∈ st.tree ∧ e.2.image.isSome = true ∧
      (∀ k, k ∈ visibleAnnotations st.config ↔
        (lookupA k e.2.annotationsByNamespacedTopic).isSome = true) ∧
      (∀ e2 ∈ st.tree, ((e2 : Time × SynchronizationItem).2.image.isSome = true ∧
        (∀ k, k ∈ visibleAnnotations st.config ↔
          (lookupA k e2.2.annotationsByNamespacedTopic).isSome = true)) →
        timeLt e.1 e2.1 = false) ∧
      (getRenderState st).1 = ⟨e.2.image, st.lastReceivedMessages.cameraInfo,
        some e.2.annotationsByNamespacedTopic⟩ ∧
      (getRenderState st).2.tree = st.tree.filter (fun e2 => !(timeLt e2.1 e.1))) := by
  have hchar := findValidEntry_charact st.tree (visibleAnnotations st.config) hsort
  constructor
  · intro hnone
    refine ⟨?_, ?_, ?_⟩
    · intro e he hcontra
      have h2 : qualifiesEntry (visibleAnnotations st.config) e = true := by
        rw [qualifiesEntry, Bool.and_eq_true]
        exact ⟨hcontra.1, (hasOnlyVisible_iff _ _ hv (hkeys e he)).mpr hcontra.2⟩
      have hq := hchar.1 hnone e he
      rw [h2] at hq
      cases hq
    · simp only [getRenderState, if_pos hsync, findSynchronizedSetAndRemoveOlderItems, hnone]
    · simp only [getRenderState, if_pos hsync, findSynchronizedSetAndRemoveOlderItems, hnone]
  · intro e hsome
    obtain ⟨hmem, hq, hmax⟩ := hchar.2 e hsome
    rw [qualifiesEntry, Bool.and_eq_true] at hq
    have hiff := (hasOnlyVisible_iff _ _ hv (hkeys e hmem)).mp hq.2
    refine ⟨hmem, hq.1, hiff, ?_, ?_, ?_⟩
    · intro e2 he2 hcond
      apply hmax e2 he2
      rw [qualifiesEntry, Bool.and_eq_true]
      exact ⟨hcond.1, (hasOnlyVisible_iff _ _ hv (hkeys e2 he2)).mpr hcond.2⟩
    · simp only [getRenderState, if_pos hsync, findSynchronizedSetAndRemoveOlderItems, hsome]
    · simp only [getRenderState, if_pos hsync, findSynchronizedSetAndRemoveOlderItems, hsome]
      rw [removeOlder_sorted st.tree e.1 hsort]

theorem claim_C1_witness :
    sortedTree stC1.tree ∧ (visibleAnnotations stC1.config).Nodup ∧
    (getRenderState stC1).1 = ⟨some imgC1, some 7, some [("K", batchC1)]⟩ ∧
    (getRenderState stC1).2.tree =
      stC1.tree.filter (fun e2 => !(timeLt e2.1 ⟨1, 0⟩)) := by
  have h := claim_C1_synchronized_scan stC1 rfl (by unfold sortedTree; decide)
    (by decide) (by decide)
  have hfind : findValidEntry stC1.tree (visibleAnnotations stC1.config) =
      some (⟨1, 0⟩, ⟨some imgC1, [("K", batchC1)]⟩) := by decide
  have h2 := h.2 _ hfind
  exact ⟨by unfold sortedTree; decide, by decide, h2.2.2.2.2.1, h2.2.2.2.2.2⟩

/-- C7: `setConfig` performs targeted resets. A synchronize toggle clears
the whole index; an imageTopic change alone clears the image of every
index entry and the current-image slot while preserving all annotation
batches and the calibration; a calibrationTopic change alone clears only
the stored calibration; a narrowing of the visible annotation set alone
filters the now-invisible batches out of the current store and out of
every index entry, touching nothing else; and the listener re-emission
flag is set exactly when one of the resets changed something, where the
narrowing scan counts only if it actually deleted a batch. -/
theorem claim_C7_targeted_resets (st : HandlerState) (nc : PartialImageModeConfig) :
    (syncResetNeeded st nc = true → (setConfig st nc).1.tree = []) ∧
    (syncResetNeeded st nc = false → imageResetNeeded st nc = true →
      annNarrowNeeded st nc = false → calibResetNeeded st nc = false →
      (setConfig st nc).1.tree =
          st.tree.map (fun e => (e.1, { e.2 with image := none })) ∧
        (setConfig st nc).1.lastReceivedMessages.image = none ∧
        (setConfig st nc).1.lastReceivedMessages.annotationsByNamespacedTopic =
          st.lastReceivedMessages.annotationsByNamespacedTopic ∧
        (setConfig st nc).1.lastReceivedMessages.cameraInfo =
          st.lastReceivedMessages.cameraInfo ∧
        (setConfig st nc).2 = true) ∧
    (syncResetNeeded st nc = false → imageResetNeeded st nc = false →
      annNarrowNeeded st nc = false → calibResetNeeded st nc = true →
      (setConfig st nc).1.lastReceivedMessages.cameraInfo = none ∧
        (setConfig st nc).1.tree = st.tree ∧
        (setConfig st nc).1.lastReceivedMessages.image = st.lastReceivedMessages.image ∧
        (setConfig st nc).1.lastReceivedMessages.annotationsByNamespacedTopic =
          st.lastReceivedMessages.annotationsByNamespacedTopic ∧
        (setConfig st nc).2 = true) ∧
    (syncResetNeeded st nc = false → imageResetNeeded st nc = false →
      calibResetNeeded st nc = false → annNarrowNeeded st nc = true →
      (setConfig st nc).1.lastReceivedMessages.annotationsByNamespacedTopic =
          st.lastReceivedMessages.annotationsByNamespacedTopic.filter
            (fun kv => keepTopic nc kv.1) ∧
        (setConfig st nc).1.tree =
          st.tree.map (fun e => (e.1, { e.2 with annotationsByNamespacedTopic :=
            e.2.annotationsByNamespacedTopic.filter (fun kv => keepTopic nc kv.1) })) ∧
        (setConfig st nc).1.lastReceivedMessages.image = st.lastReceivedMessages.image ∧
        (setConfig st nc).1.lastReceivedMessages.cameraInfo =
          st.lastReceivedMessages.cameraInfo) ∧
    ((setConfig st nc).2 =
      (syncResetNeeded st nc || imageResetNeeded st nc || calibResetNeeded st nc ||
        (annNarrowNeeded st nc &&
          (st.lastReceivedMessages.annotationsByNamespacedTopic.any
              (fun kv => !(keepTopic nc kv.1)) ||
            st.tree.any (fun e => e.2.annotationsByNamespacedTopic.any
              (fun kv => !(keepTopic nc kv.1))))))) := by
  refine ⟨?_, ?_, ?_, ?_, ?_⟩
  · intro hs
    cases hi : imageResetNeeded st nc <;> cases ha : annNarrowNeeded st nc <;>
      simp [setConfig, hs, hi, ha]
  · intro hs hi ha hc
    simp [setConfig, hs, hi, ha, hc]
  · intro hs hi ha hc
    simp [setConfig, hs, hi, ha, hc]
  · intro hs hi hc ha
    simp [setConfig, hs, hi, ha, hc]
  · cases hs : syncResetNeeded st nc <;> cases hi : imageResetNeeded st nc <;>
      cases hc : calibResetNeeded st nc <;> cases ha : annNarrowNeeded st nc <;>
      simp [setConfig, hs, hi, hc, ha, List.any_map, Function.comp]

theorem claim_C7_witness :
    annNarrowNeeded st7 nc7 = true ∧ syncResetNeeded st7 nc7 = false ∧
    (setConfig st7 nc7).1.tree =
      st7.tree.map (fun e => (e.1, { e.2 with annotationsByNamespacedTopic :=
        e.2.annotationsByNamespacedTopic.filter (fun kv => keepTopic nc7 kv.1) })) ∧
    (setConfig st7 nc7).2 = true ∧
    qualifiesEntry (visibleAnnotations (setConfig st7 nc7).1.config)
      ((setConfig st7 nc7).1.tree.headD (⟨0, 0⟩, ⟨none, []⟩)) = true := by
  have h := claim_C7_targeted_resets st7 nc7
  refine ⟨by decide, by decide, ?_, ?_, by decide⟩
  · exact (h.2.2.2.1 (by decide) (by decide) (by decide) (by decide)).2.1
  · rw [h.2.2.2.2]
    decide

theorem lookupA_append {α : Type} (k : String) (l1 l2 : List (String × α)) :
    lookupA k (l1 ++ l2) =
      match lookupA k l1 with
      | some v => some v
      | none => lookupA k l2 := by
  induction l1 with
  | nil => simp [lookupA]
  | cons e rest ih =>
    obtain ⟨k2, v2⟩ := e
    by_cases h : k2 = k
    · simp [lookupA, h]
    · simp [lookupA, h, ih]

theorem lookupA_map_over {α : Type} (k : String) (old upd : List (String × α)) :
    lookupA k (old.map (fun kv => (kv.1, (lookupA kv.1 upd).getD kv.2))) =
      (lookupA k old).map (fun v => (lookupA k upd).getD v) := by
  induction old with
  | nil => simp [lookupA]
  | cons e rest ih =>
    obtain ⟨k2, v2⟩ := e
    by_cases h : k2 = k
    · subst h
      simp [lookupA]
    · simp [lookupA, h, ih]

theorem lookupA_filter_key {α : Type} (k : String) (p : String → Bool)
    (l : List (String × α)) :
    lookupA k (l.filter (fun kv => p kv.1)) =
      if p k = true then lookupA k l else none := by
  induction l with
  | nil => simp [lookupA]
  | cons e rest ih =>
    obtain ⟨k2, v2⟩ := e
    by_cases h : k2 = k
    · subst h
      cases hp : p k2 <;> simp [List.filter_cons, hp, lookupA, ih]
    · cases hp : p k2 <;> simp [List.filter_cons, hp, lookupA, h, ih]

theorem lookupA_recordSpread {α : Type} (k : String) (old upd : List (String × α)) :
    lookupA k (recordSpread old upd) =
      match lookupA k upd with
      | some v => some v
      | none => lookupA k old := by
  unfold recordSpread
  rw [lookupA_append, lookupA_map_over,
    lookupA_filter_key k (fun k2 => (lookupA k2 old).isNone) upd]
  cases ho : lookupA k old <;> cases hu : lookupA k upd <;>
    simp [ho, hu, Option.isNone]

theorem lookupA_of_mem_nodup {α : Type} (k : String) (v : α) (m : List (String × α))
    (hmem : (k, v) ∈ m) (hnd : (m.map Prod.fst).Nodup) : lookupA k m = some v := by
  induction m with
  | nil => cases hmem
  | cons e rest ih =>
    obtain ⟨k2, v2⟩ := e
    rw [List.map_cons, List.nodup_cons] at hnd
    rcases List.mem_cons.mp hmem with heq | hmem2
    · injection heq with h1 h2
      subst h1
      subst h2
      simp [lookupA]
    · have hne : ¬(k2 = k) := by
        intro h
        have h3 : k ∈ rest.map Prod.fst := List.mem_map_of_mem Prod.fst hmem2
        rw [← h] at h3
        exact hnd.1 h3
      simp [lookupA, hne, ih hmem2 hnd.2]

theorem namespaceTopic_topic_inj (t1 s1 t2 s2 : String)
    (h : namespaceTopic t1 s1 = namespaceTopic t2 s2) : t1 = t2 := by
  unfold namespaceTopic at h
  have hdata : encodeList t1.data ++ ':' :: encodeList s1.data =
      encodeList t2.data ++ ':' :: encodeList s2.data := congrArg String.data h
  have hsplit := append_colon_inj _ _ _ _ (colon_not_mem_encodeList t1.data)
    (colon_not_mem_encodeList t2.data) hdata
  exact congrArg String.mk (encodeList_injective _ _ hsplit.1)

theorem migrationTarget_name (supported : List String) (topics : List Topic)
    (k nsk : String) (h : migrationTarget supported topics k = some nsk) :
    ∃ s, nsk = namespaceTopic k s := by
  unfold migrationTarget at h
  cases hf : topics.find? (fun top => top.name == k) with
  | none =>
    rw [hf] at h
    cases h
  | some top =>
    simp only [hf] at h
    have hname : top.name = k := by
      have hp := List.find?_some hf
      simpa using hp
    by_cases hd : top.schemaName ≠ "" ∧ top.schemaName ∈ supported
    · rw [if_pos hd] at h
      injection h with h2
      exact ⟨top.schemaName, by rw [← h2, hname]⟩
    · rw [if_neg hd] at h
      cases hc : top.convertibleTo with
      | none =>
        simp only [hc] at h
        cases h
      | some conv =>
        simp only [hc] at h
        cases hs : conv.find? (fun schema => decide (schema ∈ supported)) with
        | none =>
          simp only [hs] at h
          cases h
        | some s =>
          simp only [hs] at h
          injection h with h2
          exact ⟨s, by rw [← h2, hname]⟩

theorem migrateFold_legacy_notmem (supported : List String) (topics : List Topic)
    (kvs : List (String × SettingsNode)) (k : String)
    (hk : ¬(k ∈ kvs.map Prod.fst)) :
    ∀ acc, lookupA k (kvs.foldl (migrateStep supported topics) acc).1 =
      lookupA k acc.1 := by
  induction kvs with
  | nil =>
    intro acc
    rfl
  | cons kv rest ih =>
    intro acc
    rw [List.foldl_cons]
    have hk1 : ¬(k ∈ rest.map Prod.fst) := fun hm => hk (by simp [hm])
    rw [ih hk1]
    cases hmt : migrationTarget supported topics kv.1 with
    | some nsk => simp [migrateStep, hmt]
    | none =>
      simp only [migrateStep, hmt]
      have hne : ¬(kv.1 = k) := by
        intro h
        exact hk (by rw [← h]; simp)
      rw [lookupA_setA, if_neg hne]

theorem migrateFold_ns_nottarget (supported : List String) (topics : List Topic)
    (kvs : List (String × SettingsNode)) (nsk : String)
    (h : ∀ kv ∈ kvs, ¬(migrationTarget supported topics kv.1 = some nsk)) :
    ∀ acc, lookupA nsk (kvs.foldl (migrateStep supported topics) acc).2 =
      lookupA nsk acc.2 := by
  induction kvs with
  | nil =>
    intro acc
    rfl
  | cons kv rest ih =>
    intro acc
    rw [List.foldl_cons, ih (fun kv2 hm => h kv2 (List.mem_cons_of_mem kv hm))]
    cases hmt : migrationTarget supported topics kv.1 with
    | none => simp [migrateStep, hmt]
    | some nsk2 =>
      simp only [migrateStep, hmt]
      have hne : ¬(nsk2 = nsk) := by
        intro he
        exact h kv (List.mem_cons_self kv rest) (by rw [hmt, he])
      rw [lookupA_setA, if_neg hne]

theorem migrateFold_ns_nil (supported : List String) (topics : List Topic)
    (kvs : List (String × SettingsNode))
    (h : ∀ kv ∈ kvs, migrationTarget supported topics kv.1 = none) :
    ∀ acc, (kvs.foldl (migrateStep supported topics) acc).2 = acc.2 := by
  induction kvs with
  | nil =>
    intro acc
    rfl
  | cons kv rest ih =>
    intro acc
    rw [List.foldl_cons, ih (fun kv2 hm => h kv2 (List.mem_cons_of_mem kv hm))]
    simp [migrateStep, h kv (List.mem_cons_self kv rest)]

theorem migrateFold_mem (supported : List String) (topics : List Topic)
    (kvs : List (String × SettingsNode)) (k : String) (v : SettingsNode)
    (hmem : (k, v) ∈ kvs) (hnd : (kvs.map Prod.fst).Nodup) :
    ∀ acc,
      (migrationTarget supported topics k = none →
        lookupA k (kvs.foldl (migrateStep supported topics) acc).1 = some v) ∧
      (∀ nsk, migrationTarget supported topics k = some nsk →
        lookupA nsk (kvs.foldl (migrateStep supported topics) acc).2 = some v ∧
        lookupA k (kvs.foldl (migrateStep supported topics) acc).1 =
          lookupA k acc.1) := by
  revert hmem hnd
  induction kvs with
  | nil =>
    intro hmem _
    cases hmem
  | cons kv rest ih =>
    intro hmem hnd acc
    obtain ⟨k1, v1⟩ := kv
    rw [List.map_cons, List.nodup_cons] at hnd
    rcases List.mem_cons.mp hmem with heq | hmem2
    · injection heq with h1 h2
      subst h1
      subst h2
      have hknr : ¬(k ∈ rest.map Prod.fst) := hnd.1
      constructor
      · intro hmt
        rw [List.foldl_cons]
        rw [migrateFold_legacy_notmem supported topics rest k hknr]
        simp only [migrateStep, hmt]
        rw [lookupA_setA, if_pos rfl]
      · intro nsk hmt
        rw [List.foldl_cons]
        have hrest_not : ∀ kv2 ∈ rest,
            ¬(migrationTarget supported topics kv2.1 = some nsk) := by
          intro kv2 hm2 hcon
          obtain ⟨s1, hs1⟩ := migrationTarget_name supported topics k nsk hmt
          obtain ⟨s2, hs2⟩ := migrationTarget_name supported topics kv2.1 nsk hcon
          have hkk : kv2.1 = k :=
            namespaceTopic_topic_inj _ _ _ _ (by rw [← hs2, hs1])
          have hkm : kv2.1 ∈ rest.map Prod.fst := List.mem_map_of_mem Prod.fst hm2
          rw [hkk] at hkm
          exact hknr hkm
        constructor
        · rw [migrateFold_ns_nottarget supported topics rest nsk hrest_not]
          simp only [migrateStep, hmt]
          rw [lookupA_setA, if_pos rfl]
        · rw [migrateFold_legacy_notmem supported topics rest k hknr]
          simp only [migrateStep, hmt]
    · have hk1ne : ¬(k1 = k) := by
        intro h
        have h3 : k ∈ rest.map Prod.fst := List.mem_map_of_mem Prod.fst hmem2
        rw [← h] at h3
        exact hnd.1 h3
      rw [List.foldl_cons]
      have ihh := ih hmem2 hnd.2 (migrateStep supported topics acc (k1, v1))
      constructor
      · intro hmt
        exact ihh.1 hmt
      · intro nsk hmt
        refine ⟨(ihh.2 nsk hmt).1, ?_⟩
        rw [(ihh.2 nsk hmt).2]
        cases hmt2 : migrationTarget supported topics k1 with
        | some nsk2 => simp [migrateStep, hmt2]
        | none =>
          simp only [migrateStep, hmt2]
          rw [lookupA_setA, if_neg hk1ne]

theorem migrateConfig_eq_of_ne (supported : List String) (cfg : RendererConfig)
    (topics : List Topic) (hlen : ¬(topics.length = 0))
    (hne : (cfg.topics.foldl (migrateStep supported topics) ([], [])).2 ≠ []) :
    migrateConfigTopicsNodes supported cfg topics =
      { cfg with
        namespacedTopics := recordSpread cfg.namespacedTopics
          (cfg.topics.foldl (migrateStep supported topics) ([], [])).2
        topics := (cfg.topics.foldl (migrateStep supported topics) ([], [])).1 } := by
  unfold migrateConfigTopicsNodes
  rw [if_neg hlen]
  have hfalse : (cfg.topics.foldl (migrateStep supported topics) ([], [])).2.isEmpty
      = false := by
    cases hfold : (cfg.topics.foldl (migrateStep supported topics) ([], [])).2 with
    | nil => exact absurd hfold hne
    | cons a l => rfl
  simp only [hfalse, Bool.false_eq_true, if_false]

theorem migrate_moves (supported : List String) (cfg : RendererConfig)
    (topics : List Topic) (k : String) (v : SettingsNode) (nsk : String)
    (hnd : (cfg.topics.map Prod.fst).Nodup) (hmem : (k, v) ∈ cfg.topics)
    (hmt : migrationTarget supported topics k = some nsk) :
    lookupA nsk (migrateConfigTopicsNodes supported cfg topics).namespacedTopics
        = some v ∧
      lookupA k (migrateConfigTopicsNodes supported cfg topics).topics = none := by
  have hlen : ¬(topics.length = 0) := by
    intro h0
    have h1 : topics = [] := List.length_eq_zero.mp h0
    rw [h1] at hmt
    simp [migrationTarget] at hmt
  have hm := migrateFold_mem supported topics cfg.topics k v hmem hnd ([], [])
  have h1 := (hm.2 nsk hmt).1
  have h2 := (hm.2 nsk hmt).2
  have hne2 : (cfg.topics.foldl (migrateStep supported topics) ([], [])).2 ≠ [] := by
    intro hE
    rw [hE] at h1
    simp [lookupA] at h1
  rw [migrateConfig_eq_of_ne supported cfg topics hlen hne2]
  constructor
  · show lookupA nsk (recordSpread cfg.namespacedTopics _) = some v
    rw [lookupA_recordSpread, h1]
  · exact h2

/-- C4: `migrateConfigTopicsNodes` moves a legacy entry whose topic is found
with a non-empty directly supported schema into the namespaced map under
`namespaceTopic (name, schema)`; an entry whose topic is found without a
supported direct schema but with a supported convertible schema moves under
`namespaceTopic (name, first supported convertible in declared order)`; an
entry whose topic is not found or has no supported schema stays in the
legacy map; and with an empty topic list or zero moved entries the original
config is returned itself. -/
theorem claim_C4_migration (supported : List String) (cfg : RendererConfig)
    (topics : List Topic) (hnd : (cfg.topics.map Prod.fst).Nodup) :
    (topics = [] → migrateConfigTopicsNodes supported cfg topics = cfg) ∧
    ((∀ kv ∈ cfg.topics, migrationTarget supported topics kv.1 = none) →
      migrateConfigTopicsNodes supported cfg topics = cfg) ∧
    (∀ k v top, (k, v) ∈ cfg.topics →
      topics.find? (fun t => t.name == k) = some top →
      ¬(top.schemaName = "") → top.schemaName ∈ supported →
      lookupA (namespaceTopic k top.schemaName)
          (migrateConfigTopicsNodes supported cfg topics).namespacedTopics = some v ∧
        lookupA k (migrateConfigTopicsNodes supported cfg topics).topics = none) ∧
    (∀ k v top conv s, (k, v) ∈ cfg.topics →
      topics.find? (fun t => t.name == k) = some top →
      ¬(¬(top.schemaName = "") ∧ top.schemaName ∈ supported) →
      top.convertibleTo = some conv →
      conv.find? (fun schema => decide (schema ∈ supported)) = some s →
      lookupA (namespaceTopic k s)
          (migrateConfigTopicsNodes supported cfg topics).namespacedTopics = some v ∧
        lookupA k (migrateConfigTopicsNodes supported cfg topics).topics = none) ∧
    (∀ k v, (k, v) ∈ cfg.topics →
      migrationTarget supported topics k = none →
      lookupA k (migrateConfigTopicsNodes supported cfg topics).topics = some v) := by
  refine ⟨?_, ?_, ?_, ?_, ?_⟩
  · intro h
    subst h
    simp [migrateConfigTopicsNodes]
  · intro hall
    unfold migrateConfigTopicsNodes
    by_cases hlen : topics.length = 0
    · rw [if_pos hlen]
    · rw [if_neg hlen]
      have h2 : (cfg.topics.foldl (migrateStep supported topics) ([], [])).2 = [] :=
        migrateFold_ns_nil supported topics cfg.topics hall ([], [])
      simp [h2]
  · intro k v top hmem hf hsch hsup
    have hname : top.name = k := by
      have hp := List.find?_some hf
      simpa using hp
    have hmt : migrationTarget supported topics k
        = some (namespaceTopic k top.schemaName) := by
      simp only [migrationTarget, hf]
      rw [if_pos ⟨hsch, hsup⟩, hname]
    exact migrate_moves supported cfg topics k v _ hnd hmem hmt
  · intro k v top conv s hmem hf hns hconv hfind
    have hname : top.name = k := by
      have hp := List.find?_some hf
      simpa using hp
    have hmt : migrationTarget supported topics k = some (namespaceTopic k s) := by
      simp only [migrationTarget, hf]
      rw [if_neg hns]
      simp only [hconv, hfind]
      rw [hname]
    exact migrate_moves supported cfg topics k v _ hnd hmem hmt
  · intro k v hmem hmt
    have hm := migrateFold_mem supported topics cfg.topics k v hmem hnd ([], [])
    have h1 := hm.1 hmt
    by_cases hlen : topics.length = 0
    · have hcfg : migrateConfigTopicsNodes supported cfg topics = cfg := by
        unfold migrateConfigTopicsNodes
        rw [if_pos hlen]
      rw [hcfg]
      exact lookupA_of_mem_nodup k v cfg.topics hmem hnd
    · by_cases hE : (cfg.topics.foldl (migrateStep supported topics) ([], [])).2 = []
      · have hcfg : migrateConfigTopicsNodes supported cfg topics = cfg := by
          unfold migrateConfigTopicsNodes
          rw [if_neg hlen]
          simp [hE]
        rw [hcfg]
        exact lookupA_of_mem_nodup k v cfg.topics hmem hnd
      · rw [migrateConfig_eq_of_ne supported cfg topics hlen hE]
        exact h1

theorem claim_C4_witness :
    (cfg4.topics.map Prod.fst).Nodup ∧
    lookupA (namespaceTopic "A" "S1")
        (migrateConfigTopicsNodes supported4 cfg4 topics4).namespacedTopics
      = some (some 1) ∧
    lookupA (namespaceTopic "B" "S2")
        (migrateConfigTopicsNodes supported4 cfg4 topics4).namespacedTopics
      = some (some 2) ∧
    lookupA "A" (migrateConfigTopicsNodes supported4 cfg4 topics4).topics = none ∧
    lookupA "C" (migrateConfigTopicsNodes supported4 cfg4 topics4).topics
      = some (some 3) ∧
    lookupA "D" (migrateConfigTopicsNodes supported4 cfg4 topics4).topics
      = some (some 4) := by
  have h := claim_C4_migration supported4 cfg4 topics4 (by decide)
  have hA := h.2.2.1 "A" (some 1) ⟨"A", "S1", none, none⟩ (by decide) (by decide)
    (by decide) (by decide)
  have hB := h.2.2.2.1 "B" (some 2) ⟨"B", "X", some ["Y", "S2"], none⟩ ["Y", "S2"] "S2"
    (by decide) (by decide) (by decide) (by decide) (by decide)
  exact ⟨by decide, hA.1, hB.1, hA.2,
    h.2.2.2.2 "C" (some 3) (by decide) (by decide),
    h.2.2.2.2 "D" (some 4) (by decide) (by decide)⟩
